import Mathlib

/-!
Verification development for the `language-model-converter` core
(`src/parser.ts`, class `LanguageModelParser`).

The TypeScript source is shallowly embedded below.  JavaScript strings are
modelled as Lean `String`/`List Char`; the handful of JavaScript string
operations the source uses (`indexOf`, one-shot `String.replace` with a
string pattern, `/\s\s+/g` squashing, `trim`, `split(' ')`, the two
regular expressions `/\[(.+?):(.+?)\]/g` and `/(\[.+?:.+?\])/g`) are
implemented with their JavaScript semantics, including leftmost lazy
matching with backtracking for the tag regexes and `$`-escape processing
in replacement strings.  `Set`/`Map` values are modelled as
insertion-ordered lists, matching JavaScript iteration order, and the
mutating `Set.forEach` traversal of `expandVariables` is modelled as a
cursor (done / todo) worklist with fuel.
-/

/-- The `culture` union type of the source: `'en-us' | 'es-es'`. -/
inductive Culture where
  | enUs : Culture
  | esEs : Culture
deriving DecidableEq

/-- String value of a culture, as used in the output model. -/
def Culture.str : Culture → String
  | .enUs => "en-us"
  | .esEs => "es-es"

/-- JavaScript `\w` together with the accented range `À-ſ`
used by the source's tokenizer regex `[^\wÀ-ſ]`. -/
def isWordChar (c : Char) : Bool :=
  (('a' ≤ c && c ≤ 'z') || ('A' ≤ c && c ≤ 'Z') || ('0' ≤ c && c ≤ '9')
    || c = '_' || (0xC0 ≤ c.val && c.val ≤ 0x17F))

/-- JavaScript `\s` restricted to the whitespace characters that can occur
here: space, tab, LF, CR, VT, FF and NBSP. -/
def isJsSpace (c : Char) : Bool :=
  c = ' ' || c = '\t' || c = '\n' || c = '\r' || c.val = 0xB || c.val = 0xC
    || c.val = 0xA0

/-- Unicode simple lowercasing on the ranges relevant to the source's
cultures (ASCII and Latin-1 letters); models `toLocaleLowerCase()`. -/
def jsToLower (c : Char) : Char :=
  if 'A' ≤ c && c ≤ 'Z' then Char.ofNat (c.toNat + 32)
  else if 0xC0 ≤ c.val && c.val ≤ 0xDE && c.val ≠ 0xD7 then Char.ofNat (c.toNat + 32)
  else c

/-- `String.prototype.trim`: strip leading and trailing whitespace. -/
def jsTrimList (cs : List Char) : List Char :=
  ((cs.dropWhile (isJsSpace ·)).reverse.dropWhile (isJsSpace ·)).reverse

/-- `String.prototype.trim` on strings. -/
def jsTrim (s : String) : String := String.mk (jsTrimList s.data)

/-- Emission of a finished whitespace run for `squashSpaces`: a run of
two or more whitespace characters becomes a single space, a lone
whitespace character stays itself. -/
def squashFlush : List Char → List Char
  | [] => []
  | [w] => [w]
  | _ => [' ']

/-- Worker for `squashSpaces`: `run` is the pending (reversed) maximal
whitespace run. -/
def squashGo (run : List Char) : List Char → List Char
  | [] => squashFlush run
  | c :: cs =>
    if isJsSpace c then squashGo (c :: run) cs
    else squashFlush run ++ (c :: squashGo [] cs)

/-- `.replace(/\s\s+/g, ' ')`: each maximal run of two or more whitespace
characters becomes a single space; a lone whitespace character stays. -/
def squashSpaces (cs : List Char) : List Char := squashGo [] cs

/-- `String.prototype.split(' ')`: split at every single space character.
The empty string yields `[[]]` (JavaScript: `''.split(' ') === ['']`). -/
def splitOnSpace : List Char → List (List Char)
  | [] => [[]]
  | c :: cs =>
    match splitOnSpace cs with
    | [] => if c = ' ' then [[], []] else [[c]]
    | g :: gs => if c = ' ' then [] :: g :: gs else (c :: g) :: gs

/-- Does `s` start with `p`? -/
def charsStartsWith : List Char → List Char → Bool
  | _, [] => true
  | [], _ :: _ => false
  | c :: cs, p :: ps => c = p && charsStartsWith cs ps

/-- `String.prototype.indexOf` for a pattern list: first index at which
`p` occurs in `s`, if any. -/
def charsIndexOf : List Char → List Char → Option Nat
  | [], p => if charsStartsWith [] p then some 0 else none
  | c :: cs, p =>
    if charsStartsWith (c :: cs) p then some 0
    else (charsIndexOf cs p).map (· + 1)

/-- `s.indexOf(pat) !== -1`. -/
def containsStr (s pat : String) : Bool := (charsIndexOf s.data pat.data).isSome

/-- `GetSubstitution` for a string-pattern `String.prototype.replace`:
`$$`, `$&`, `` $` `` and the `$`-apostrophe escape are interpreted, all
other text is literal (there are no capture groups for a string pattern). -/
def substDollars (matched before after : List Char) : List Char → List Char
  | [] => []
  | '$' :: c :: rest =>
    if c = '$' then '$' :: substDollars matched before after rest
    else if c = '&' then matched ++ substDollars matched before after rest
    else if c.val = 0x60 then before ++ substDollars matched before after rest
    else if c.val = 0x27 then after ++ substDollars matched before after rest
    else '$' :: substDollars matched before after (c :: rest)
  | c :: rest => c :: substDollars matched before after rest

/-- JavaScript `s.replace(pat, rep)` with a *string* pattern: replace the
first occurrence only, processing `$` escapes in the replacement. -/
def jsReplace (s pat rep : String) : String :=
  match charsIndexOf s.data pat.data with
  | none => s
  | some i =>
    let before := s.data.take i
    let after := s.data.drop (i + pat.data.length)
    String.mk (before ++ substDollars pat.data before after rep.data ++ after)

/-- One character of the tokenizer's first two global replaces
(`[^\wÀ-ſ]` and `_` each become ` c `; other word characters
are kept). -/
def expandChar (c : Char) : List Char :=
  if isWordChar c && c ≠ '_' then [c] else [' ', c, ' ']

/-- `tokenize` (source lines 197–211): wrap every non-word character and
every underscore in spaces, undo the *first* occurrence of `' º '` and of
`' ª '` (plain-string `.replace`), squash whitespace runs, trim, and split
on single spaces. -/
def tokenize (sentence : String) : List String :=
  let step1 := String.mk (sentence.data.flatMap expandChar)
  let step2 := jsReplace step1 " º " "º"
  let step3 := jsReplace step2 " ª " "ª"
  (splitOnSpace (jsTrimList (squashSpaces step3.data))).map String.mk

/-- `wordCount` (source lines 193–195). -/
def wordCount (sentence : String) : Nat := (tokenize sentence).length

/-- `normalizeSentence` (source lines 174–191): squash whitespace runs,
trim, then lowercase — only ASCII `A`–`Z` for `en-us`, full locale
lowercasing otherwise. -/
def normalizeSentence (culture : Culture) (sentence : String) : String :=
  let normalized := jsTrimList (squashSpaces sentence.data)
  match culture with
  | .enUs => String.mk (normalized.map (fun c => if 'A' ≤ c && c ≤ 'Z' then jsToLower c else c))
  | .esEs => String.mk (normalized.map jsToLower)

/-- Lazy `.+?` up to a delimiter: the smallest nonempty newline-free
prefix of the input followed by `delim`; returns (prefix, rest-after-delim). -/
def lazySplitGo (delim : Char) (acc : List Char) : List Char → Option (List Char × List Char)
  | [] => none
  | c :: rest =>
    if c = delim then some (acc.reverse, rest)
    else if c = '\n' then none
    else lazySplitGo delim (c :: acc) rest

/-- Entry point of `lazySplitGo`: the first character is consumed
unconditionally (`.+?` matches at least one character). -/
def lazySplit (delim : Char) : List Char → Option (List Char × List Char)
  | [] => none
  | c :: rest => if c = '\n' then none else lazySplitGo delim [c] rest

/-- Matching `.+?:.+?\]` with backtracking, for the portion after a `[`:
tries each `:` in turn as the group separator (lazy first); for each, the
second group runs to the first `]`.  Returns (group1, group2, rest). -/
def matchTagTailGo (acc : List Char) : List Char → Option (List Char × List Char × List Char)
  | [] => none
  | c :: rest =>
    if c = ':' then
      match lazySplit ']' rest with
      | some (g2, rest') => some (acc.reverse, g2, rest')
      | none => matchTagTailGo (c :: acc) rest
    else if c = '\n' then none
    else matchTagTailGo (c :: acc) rest

/-- Entry point of `matchTagTailGo` (first character of group 1 is
consumed unconditionally). -/
def matchTagTail : List Char → Option (List Char × List Char × List Char)
  | [] => none
  | c :: rest => if c = '\n' then none else matchTagTailGo [c] rest

/-- Leftmost match of `\[.+?:.+?\]` in `s`: returns
(text before the match, group1, group2, text after the match). -/
def findFirstTag : List Char → Option (List Char × List Char × List Char × List Char)
  | [] => none
  | c :: rest =>
    if c = '[' then
      match matchTagTail rest with
      | some (g1, g2, rest') => some ([], g1, g2, rest')
      | none => (findFirstTag rest).map (fun q => (c :: q.1, q.2))
    else (findFirstTag rest).map (fun q => (c :: q.1, q.2))

/-- Iterated matching for `extractEntities` (source lines 131–148):
the `while (match = regexEntity.exec(sentence))` loop with a `/g` regex,
yielding (entityValue, entityType) pairs left to right. -/
def extractEntitiesAux : Nat → List Char → List (String × String)
  | 0, _ => []
  | fuel + 1, s =>
    match findFirstTag s with
    | none => []
    | some (_, g1, g2, rest) => (String.mk g1, String.mk g2) :: extractEntitiesAux fuel rest

/-- `extractEntities` (source lines 131–148). -/
def extractEntities (sentence : String) : List (String × String) :=
  extractEntitiesAux (sentence.data.length + 1) sentence.data

/-- The text of a whole tag match `[g1:g2]` (the captured group of the
splitting regex is the entire match). -/
def mkTag (g1 g2 : List Char) : String :=
  String.mk ('[' :: (g1 ++ ':' :: (g2 ++ [']'])))

/-- Iterated matching for `.split(/(\[.+?:.+?\])/g)`: with a capture
group, `split` interleaves the separators (the whole tag matches) with the
pieces between them; a trailing empty piece is kept. -/
def splitTagsAux : Nat → List Char → List String
  | 0, s => [String.mk s]
  | fuel + 1, s =>
    match findFirstTag s with
    | none => [String.mk s]
    | some (pre, g1, g2, rest) => String.mk pre :: mkTag g1 g2 :: splitTagsAux fuel rest

/-- `sentence.split(/(\[.+?:.+?\])/g)` as used by `buildUtterance`. -/
def splitTags (s : String) : List String := splitTagsAux (s.data.length + 1) s.data

/-- An entity span of an utterance: `{entity, startPos, endPos}`. -/
structure UttEntity where
  entity : String
  startPos : Nat
  endPos : Nat
deriving DecidableEq

/-- `Luis.Utterance`: normalized text, owning intent, entity spans. -/
structure Utterance where
  text : String
  intent : String
  entities : List UttEntity
deriving DecidableEq

/-- Recording one extracted entity (source lines 227–236): the span's
`startPos` is the word count of the buffer so far, the entity value is
appended to the buffer, and `endPos` is the new word count minus one. -/
def recordSpan (st : List UttEntity × String) (e : String × String) :
    List UttEntity × String :=
  let startPos := wordCount st.2
  let parts := st.2 ++ e.1
  let endPos := wordCount parts - 1
  (st.1 ++ [⟨e.2, startPos, endPos⟩], parts)

/-- One step of `buildUtterance`'s `forEach` over the split parts:
a part containing tags records one span per extracted entity against the
growing buffer; a plain part is appended to the buffer. -/
def buildStep (acc : List UttEntity × String) (part : String) : List UttEntity × String :=
  let extracted := extractEntities part
  if extracted.isEmpty then (acc.1, acc.2 ++ part)
  else extracted.foldl recordSpan acc

/-- `buildUtterance` (source lines 213–249): trim, split at tag matches,
accumulate plain text and token-indexed spans, then normalize the text. -/
def buildUtterance (culture : Culture) (sentence intent : String) : Utterance :=
  let st := (splitTags (jsTrim sentence)).foldl buildStep ([], "")
  { text := normalizeSentence culture st.2, intent := intent, entities := st.1 }

/-- A registered `Luis.Entity`: a parent name and, for composite
entities, the accumulated list of child subtype names. -/
structure Entity where
  name : String
  children : Option (List String)
deriving DecidableEq

/-- First value stored under `key` in an insertion-ordered association
list (JavaScript `Map.get` / property lookup). -/
def lookupA {α : Type} (m : List (String × α)) (key : String) : Option α :=
  (m.find? (fun p => p.1 = key)).map (fun p => p.2)

/-- JavaScript `Map.set`: overwrite in place (keeping the key's original
position) when the key exists, append otherwise. -/
def mapSet {α : Type} (m : List (String × α)) (key : String) (v : α) : List (String × α) :=
  match m with
  | [] => [(key, v)]
  | p :: rest => if p.1 = key then (key, v) :: rest else p :: mapSet rest key v

/-- The `::` split of `registerEntity` (source lines 151–158): at the
first occurrence of `::`, the left part is the parent entity type, the
right part the subtype. -/
def splitEntityType (t : String) : String × Option String :=
  match charsIndexOf t.data "::".data with
  | some i => (String.mk (t.data.take i), some (String.mk (t.data.drop (i + 2))))
  | none => (t, none)

/-- The children update of `registerEntity` (source lines 163–168): a
truthy (present, nonempty) subtype is appended to the (possibly created)
children list unless already there. -/
def updateEntityChildren (sub : Option String) (luisEntity : Entity) : Entity :=
  match sub with
  | some s =>
    if s ≠ "" then
      let ch := luisEntity.children.getD []
      if s ∈ ch then { luisEntity with children := some ch }
      else { luisEntity with children := some (ch ++ [s]) }
    else luisEntity
  | none => luisEntity

/-- `registerEntity` (source lines 150–172): split the span's type at the
first `::`, fetch or create the parent entity, append the subtype to its
children unless already present (an empty subtype is falsy and ignored),
and store the entity back under the parent name. -/
def registerEntity (entity : UttEntity) (entitiesMap : List (String × Entity)) :
    List (String × Entity) :=
  let sp := splitEntityType entity.entity
  let luisEntity := (lookupA entitiesMap sp.1).getD ⟨sp.1, none⟩
  mapSet entitiesMap sp.1 (updateEntityChildren sp.2 luisEntity)

/-- The search string `'${' + key + '}'` of `expandVariables`. -/
def mkSearch (key : String) : String := "$\x7b" ++ key ++ "\x7d"

/-- `Set.prototype.add` during the `expandVariables` traversal: the set
is `done ++ (cur when present) ++ rest`; adding an element already in the
set is a no-op, otherwise it is appended (to `rest`, where iteration will
reach it). -/
def addIfAbsent (done : List String) (present : Bool) (cur x : String)
    (rest : List String) : List String :=
  if x ∈ done ∨ (present ∧ x = cur) ∨ x ∈ rest then rest else rest ++ [x]

/-- Innermost body of `expandVariables` (source lines 112–124) for one
(key, value) pair against the current sentence `cur`: if the search
string occurs in `cur`, add the replaced sentence and delete `cur`
(or re-add `cur` when replacing changed nothing). -/
def procVal (done : List String) (cur key value : String) :
    Bool × List String → Bool × List String
  | (present, rest) =>
    if containsStr cur (mkSearch key) then
      let newSentence := jsReplace cur (mkSearch key) value
      if newSentence = cur then
        (present, addIfAbsent done present cur cur rest)
      else
        (false, (addIfAbsent done present cur newSentence rest).erase cur)
    else (present, rest)

/-- `values.forEach(value => ...)` of `expandVariables`. -/
def procVals (done : List String) (cur key : String) : List String →
    Bool × List String → Bool × List String
  | [], st => st
  | v :: vs, st => procVals done cur key vs (procVal done cur key v st)

/-- `variables.forEach((values, key) => ...)` of `expandVariables`. -/
def procPairs (done : List String) (cur : String) : List (String × List String) →
    Bool × List String → Bool × List String
  | [], st => st
  | (key, vs) :: ps, st => procPairs done cur ps (procVals done cur key vs st)

/-- The mutating `Set.forEach` of `expandVariables` as a worklist:
`done` holds the already-visited elements still in the set, `todo` the
elements still to visit; each step visits the head of `todo`, which stays
in the set only when no replacement applied to it.  JavaScript can loop
forever here (a list value may reintroduce its own placeholder), so the
model takes fuel and returns `none` where JavaScript diverges. -/
def expandLoop (vars : List (String × List String)) :
    Nat → List String → List String → Option (List String)
  | _, done, [] => some done
  | 0, _, _ :: _ => none
  | fuel + 1, done, cur :: rest =>
    match procPairs done cur vars (true, rest) with
    | (present, rest') => expandLoop vars fuel (if present then done ++ [cur] else done) rest'

/-- `expandVariables` (source lines 109–129). -/
def expandVariables (fuel : Nat) (sentence : String)
    (vars : List (String × List String)) : Option (List String) :=
  expandLoop vars fuel [] [sentence]

/-- A `Luis.Intent` of the output model. -/
structure Intent where
  name : String
deriving DecidableEq

/-- The assembled `Luis.Model` (source lines 26–39 and 100–106).
`desc` is `'Bot Model ' + new Date()`; the date string is an explicit
parameter of the embedding.  The fields the source leaves empty are kept
as empty lists.  (The embedded document shape carries no phraselist
block, so `model_features` is the empty list a phraselist-free document
produces.) -/
structure Model where
  luis_schema_version : String
  name : String
  desc : String
  culture : String
  intents : List Intent
  entities : List Entity
  composites : List String
  bing_entities : List String
  actions : List String
  model_features : List String
  regex_features : List String
  utterances : List Utterance
deriving DecidableEq

/-- The merged YAML document handed to `parse`: an insertion-ordered
mapping whose keys are intent names, `list.${...}` list names or the
`builtin` block, each holding a list of strings. -/
def Document : Type := List (String × List String)

/-- The keys of the document that are treated as intents (source
lines 43–47): everything not starting with `list.`, `phraselist` or
`builtin`. -/
def intentKeys (doc : Document) : List String :=
  (doc.map (fun p => p.1)).filter
    (fun k => !(charsStartsWith k.data "list.".data
      || charsStartsWith k.data "phraselist".data
      || charsStartsWith k.data "builtin".data))

/-- The intent-name length check of `parse` (source lines 48–53): the
`map` throws on the first name longer than 50 characters. -/
def validateIntentNames : List String → Except String (List String)
  | [] => Except.ok []
  | k :: ks =>
    if 50 < k.length then
      Except.error ("Intent \"" ++ k ++ "\" should be less than 50 characters. was "
        ++ toString k.length)
    else (validateIntentNames ks).map (fun rest => k :: rest)

/-- The replacements map of `parse` (source lines 55–62): every
`list.${name}` key contributes its values under key `name`
(`slice('list.${'.length, -1)` strips the first 7 characters and the
trailing brace). -/
def buildReplacements (doc : Document) : List (String × List String) :=
  ((doc.map (fun p => p.1)).filter (fun k => charsStartsWith k.data "list.".data)).foldl
    (fun m k =>
      mapSet m (String.mk ((k.data.drop 7).take ((k.data.drop 7).length - 1)))
        ((lookupA doc k).getD []))
    []

/-- The per-intent body of `parse` (source lines 68–79): expand each
sentence, flatten (`[].reduce` on an empty array throws a `TypeError`),
then build utterances and register their entities.  The utterance `Set`
holds freshly-built objects compared by reference, so every built
utterance is appended. -/
def processIntent (culture : Culture) (fuel : Nat)
    (replacements : List (String × List String)) (doc : Document)
    (acc : List Utterance × List (String × Entity)) (intent : String) :
    Except String (List Utterance × List (String × Entity)) := do
  let sentences := (lookupA doc intent).getD []
  if sentences.isEmpty then
    throw "TypeError: Reduce of empty array with no initial value"
  let expanded ← sentences.mapM (fun s =>
    match expandVariables fuel s replacements with
    | some out => pure out
    | none => throw "expandVariables does not terminate")
  let flat := expanded.flatten
  pure (flat.foldl
    (fun st sentence =>
      let utterance := buildUtterance culture sentence intent
      (st.1 ++ [utterance],
       utterance.entities.foldl (fun em e => registerEntity e em) st.2))
    acc)

/-- `parse` (source lines 14–107) over an already-merged document:
validate intent names, build the replacements map, expand sentences and
build utterances and the entity registry per intent, then assemble the
model.  `now` is the `new Date()` string embedded in `desc`. -/
def parse (doc : Document) (culture : Culture) (now : String) (fuel : Nat) :
    Except String Model := do
  let intentNames ← validateIntentNames (intentKeys doc)
  let replacements := buildReplacements doc
  let st ← intentNames.foldlM (processIntent culture fuel replacements doc) ([], [])
  pure
    { luis_schema_version := "1.3.0"
      name := "tef"
      desc := "Bot Model " ++ now
      culture := culture.str
      intents := intentNames.map (fun n => ⟨n⟩)
      entities := st.2.map (fun p => p.2)
      composites := []
      bing_entities := (lookupA doc "builtin").getD []
      actions := []
      model_features := []
      regex_features := []
      utterances := st.1 }

/-- The tokenizer without the `º`/`ª` collapse steps: every non-word
character (and every underscore) strictly in its own token.  Used to
state what `tokenize` does on strings free of `º` and `ª`. -/
def splitAllTokens (s : String) : List String :=
  (splitOnSpace (jsTrimList (squashSpaces (s.data.flatMap expandChar)))).map String.mk

/-- Erase the timestamp-bearing `desc` field of a parse result, for
stating determinism of everything else. -/
def eraseDesc (r : Except String Model) : Except String Model :=
  r.map (fun m => { m with desc := "" })

/-! ### Abstract substitution states for the expansion cross-product

To settle the cross-product property of `expandVariables`, a template
with one occurrence of each placeholder is abstracted as a rendering
function from substitution states — one `Option String` slot per entry of
the lists map (`none` = placeholder still present, `some v` = value `v`
substituted).  The hypotheses of the claim theorem state, decidably, that
`containsStr`/`jsReplace` act on rendered states exactly as substitution,
which is what "k distinct resolvable placeholders" means. -/

/-- All ways to pick one element from each of the given lists, in
lexicographic order. -/
def allPicks {α : Type} : List (List α) → List (List α)
  | [] => [[]]
  | l :: ls => l.flatMap (fun x => (allPicks ls).map (fun τ => x :: τ))

/-- All substitution states over the lists map: each slot is `none` or
one of that list's values. -/
def allStates (vars : List (String × List String)) : List (List (Option String)) :=
  allPicks (vars.map (fun p => (none : Option String) :: p.2.map some))

/-- The fully substituted states. -/
def fullStates (vars : List (String × List String)) : List (List (Option String)) :=
  allPicks (vars.map (fun p => p.2.map some))

/-- The state of the unexpanded template: every slot `none`. -/
def initState (vars : List (String × List String)) : List (Option String) :=
  vars.map (fun _ => none)

/-- Is every slot substituted? -/
def stFull (σ : List (Option String)) : Bool := σ.all (fun o => o.isSome)

/-- State extension: every substituted slot of `σ` agrees in `φ`. -/
def stLE (σ φ : List (Option String)) : Prop :=
  ∀ (i : Nat) (v : String), σ[i]? = some (some v) → φ[i]? = some (some v)

/-- Number of unsubstituted slots. -/
def unsub (σ : List (Option String)) : Nat := (σ.filter (fun o => o.isNone)).length

/-- The one-step substitutions of `σ` for the pairs `ps` (a suffix of the
lists map starting at slot `j`), in iteration order. -/
def childrenAux (σ : List (Option String)) :
    Nat → List (String × List String) → List (List (Option String))
  | _, [] => []
  | j, (_, vs) :: ps =>
    (match σ[j]? with
     | some none => vs.map (fun v => σ.set j (some v))
     | _ => []) ++ childrenAux σ (j + 1) ps

/-- All one-step substitutions of `σ`, in the iteration order of the
traversal of `expandVariables`. -/
def childrenOf (σ : List (Option String)) (vars : List (String × List String)) :
    List (List (Option String)) :=
  childrenAux σ 0 vars

/-- Append-only deduplicating filter: keep the elements of the second
list not in `blocked` and not already kept. -/
def filterNew {α : Type} [DecidableEq α] (blocked : List α) : List α → List α
  | [] => []
  | x :: xs => if x ∈ blocked then filterNew blocked xs else x :: filterNew (blocked ++ [x]) xs

/-- The rendering function realises the states faithfully: on every
state, a substituted slot's search string does not occur in the rendered
sentence, an unsubstituted slot's search string occurs, and replacing it
substitutes that slot. -/
def RendersFaithfully (vars : List (String × List String))
    (render : List (Option String) → String) : Prop :=
  ∀ σ ∈ allStates vars, ∀ jp ∈ vars.enum,
    if (σ.getD jp.1 none).isSome then
      containsStr (render σ) (mkSearch jp.2.1) = false
    else
      containsStr (render σ) (mkSearch jp.2.1) = true ∧
      ∀ v ∈ jp.2.2, jsReplace (render σ) (mkSearch jp.2.1) v = render (σ.set jp.1 (some v))

/-- Total size of the lists map. -/
def sumLens (vars : List (String × List String)) : Nat :=
  (vars.map (fun p => p.2.length)).sum

/-- Sufficient fuel for `expandVariables` on a faithful template. -/
def expandFuelBound (vars : List (String × List String)) : Nat :=
  (1 + sumLens vars) ^ vars.length

/-- Worklist potential of one state. -/
def stepPot (b : Nat) (σ : List (Option String)) : Nat := b ^ unsub σ

/-- Worklist potential of a todo list. -/
def potT (b : Nat) (t : List (List (Option String))) : Nat :=
  (t.map (stepPot b)).sum

/-! ## Lemmas and claim theorems -/

/-! ## Helper lemmas -/

theorem charsStartsWith_subset {s pat : List Char} (h : charsStartsWith s pat = true) :
    ∀ c ∈ pat, c ∈ s := by
  induction pat generalizing s with
  | nil => intro c hc; cases hc
  | cons p ps ih =>
    cases s with
    | nil => simp [charsStartsWith] at h
    | cons a as =>
      simp only [charsStartsWith, Bool.and_eq_true, decide_eq_true_eq] at h
      intro c hc
      rcases List.mem_cons.mp hc with hc | hc
      · subst hc
        rw [h.1]
        exact List.mem_cons_self _ _
      · exact List.mem_cons_of_mem a (ih h.2 c hc)

theorem charsIndexOf_eq_none {s pat : List Char} {c : Char}
    (hc : c ∈ pat) (hs : c ∉ s) : charsIndexOf s pat = none := by
  induction s with
  | nil =>
    cases pat with
    | nil => cases hc
    | cons p ps => simp [charsIndexOf, charsStartsWith]
  | cons a as ih =>
    simp only [charsIndexOf]
    have h1 : charsStartsWith (a :: as) pat = false := by
      cases h : charsStartsWith (a :: as) pat
      · rfl
      · exact absurd (charsStartsWith_subset h c hc) hs
    rw [h1]
    simp only [Bool.false_eq_true, if_false]
    rw [ih (fun h => hs (List.mem_cons_of_mem a h))]
    rfl

theorem jsReplace_id_of_not_mem {s pat rep : String} {c : Char}
    (hc : c ∈ pat.data) (hs : c ∉ s.data) : jsReplace s pat rep = s := by
  unfold jsReplace
  rw [charsIndexOf_eq_none hc hs]

theorem mem_expandChar {c a : Char} (h : c ∈ expandChar a) : c = a ∨ c = ' ' := by
  unfold expandChar at h
  split at h
  · rcases List.mem_singleton.mp h with rfl
    exact Or.inl rfl
  · rcases List.mem_cons.mp h with rfl | h
    · exact Or.inr rfl
    · rcases List.mem_cons.mp h with rfl | h
      · exact Or.inl rfl
      · rcases List.mem_singleton.mp h with rfl
        exact Or.inr rfl

theorem not_mem_flatMap_expandChar {c : Char} {s : List Char}
    (hc : c ≠ ' ') (hs : c ∉ s) : c ∉ s.flatMap expandChar := by
  intro h
  rcases List.mem_flatMap.mp h with ⟨a, ha, hmem⟩
  rcases mem_expandChar hmem with rfl | rfl
  · exact hs ha
  · exact hc rfl

theorem tokenize_eq_splitAllTokens (s : String)
    (h1 : 'º' ∉ s.data) (h2 : 'ª' ∉ s.data) : tokenize s = splitAllTokens s := by
  have m1 : 'º' ∉ s.data.flatMap expandChar :=
    not_mem_flatMap_expandChar (by decide) h1
  have m2 : 'ª' ∉ s.data.flatMap expandChar :=
    not_mem_flatMap_expandChar (by decide) h2
  have e1 : jsReplace (String.mk (s.data.flatMap expandChar)) " º " "º" =
      String.mk (s.data.flatMap expandChar) :=
    jsReplace_id_of_not_mem (c := 'º') (by decide) m1
  have e2 : jsReplace (String.mk (s.data.flatMap expandChar)) " ª " "ª" =
      String.mk (s.data.flatMap expandChar) :=
    jsReplace_id_of_not_mem (c := 'ª') (by decide) m2
  simp only [tokenize, splitAllTokens, e1, e2]

/-- Claim C1 (code bug): evaluating `buildUtterance` on the sentence
`"[Santiago Bernabeu:place] is a stadium"` shows the code emits the span
`{entity := "place", startPos := 1, endPos := 1}` — not the
`{startPos := 0, endPos := 1}` the specification states: the two-token
entity at the head of the sentence is given a one-token span shifted by
one, because the word count of the empty buffer is 1. -/
theorem c1_buildUtterance_leading_entity_eval :
    buildUtterance .enUs "[Santiago Bernabeu:place] is a stadium" "intent" =
      { text := "santiago bernabeu is a stadium", intent := "intent",
        entities := [⟨"place", 1, 1⟩] } ∧
    (buildUtterance .enUs "[Santiago Bernabeu:place] is a stadium" "intent").entities ≠
      [⟨"place", 0, 1⟩] := by
  constructor
  · rfl
  · decide

/-- Claim C6, counterexample: `"aº 5º"` contains `"5º"`, yet its tokens
are `["aº", "5", "º"]` — no token `"5º"`.  Only the first `' º '`
occurrence is collapsed (plain-string `.replace`), so the claim's "any
string containing 5º yields the single token 5º" is false. -/
theorem c6_counterexample :
    containsStr "aº 5º" "5º" = true ∧
    tokenize "aº 5º" = ["aº", "5", "º"] ∧
    "5º" ∉ tokenize "aº 5º" := by
  refine ⟨rfl, rfl, ?_⟩
  decide

/-- Claim C6, amended: the tokenizer splits every non-word character into
its own token, except that the *first* occurrence of `' º '` (and of
`' ª '`) after splitting is collapsed back into the preceding token;
in particular `tokenize "a,b,c" = ["a",",","b",",","c"]` and
`tokenize "5º" = ["5º"]`, and on every string free of `º` and `ª` the
tokenizer is exactly the pure non-word-character splitter. -/
theorem c6_amended_tokenize :
    tokenize "a,b,c" = ["a", ",", "b", ",", "c"] ∧
    tokenize "5º" = ["5º"] ∧
    ∀ s : String, 'º' ∉ s.data → 'ª' ∉ s.data → tokenize s = splitAllTokens s := by
  exact ⟨rfl, rfl, tokenize_eq_splitAllTokens⟩

/-- Witness for `c6_amended_tokenize` at the concrete string `"a,b,c"`. -/
theorem c6_witness :
    'º' ∉ "a,b,c".data ∧ 'ª' ∉ "a,b,c".data ∧ tokenize "a,b,c" = splitAllTokens "a,b,c" :=
  ⟨by decide, by decide, c6_amended_tokenize.2.2 "a,b,c" (by decide) (by decide)⟩

/-- Claim C7: under `en-us`, `normalizeSentence` lowercases only ASCII
`A`–`Z` and leaves every other character untouched
(`"Café ABC" ↦ "café abc"`, `"CAFÉ ABC" ↦ "cafÉ abc"`); under the other
supported culture (`es-es`) the whole string is locale-lowercased
(`"Café ABC" ↦ "café abc"`, `"CAFÉ ABC" ↦ "café abc"`). -/
theorem c7_normalize_culture :
    normalizeSentence .enUs "Café ABC" = "café abc" ∧
    normalizeSentence .esEs "Café ABC" = "café abc" ∧
    normalizeSentence .enUs "CAFÉ ABC" = "cafÉ abc" ∧
    normalizeSentence .esEs "CAFÉ ABC" = "café abc" ∧
    (∀ s : String, normalizeSentence .enUs s =
      String.mk ((jsTrimList (squashSpaces s.data)).map
        (fun c => if 'A' ≤ c && c ≤ 'Z' then jsToLower c else c))) ∧
    (∀ s : String, normalizeSentence .esEs s =
      String.mk ((jsTrimList (squashSpaces s.data)).map jsToLower)) :=
  ⟨rfl, rfl, rfl, rfl, fun _ => rfl, fun _ => rfl⟩

theorem lookupA_mapSet_self {α : Type} (m : List (String × α)) (k : String) (v : α) :
    lookupA (mapSet m k v) k = some v := by
  induction m with
  | nil => simp [mapSet, lookupA, List.find?]
  | cons p rest ih =>
    by_cases h : p.1 = k
    · simp [mapSet, h, lookupA, List.find?]
    · rw [mapSet, if_neg h]
      unfold lookupA
      rw [List.find?_cons_of_neg _ (by simp [h])]
      exact ih

theorem mapSet_mapSet {α : Type} (m : List (String × α)) (k : String) (v w : α) :
    mapSet (mapSet m k v) k w = mapSet m k w := by
  induction m with
  | nil => simp [mapSet]
  | cons p rest ih =>
    by_cases h : p.1 = k
    · simp [mapSet, h]
    · simp [mapSet, h, ih]

theorem updateEntityChildren_idem (sub : Option String) (e : Entity) :
    updateEntityChildren sub (updateEntityChildren sub e) = updateEntityChildren sub e := by
  cases sub with
  | none => rfl
  | some s =>
    by_cases hne : s = ""
    · simp [updateEntityChildren, hne]
    · by_cases hmem : s ∈ e.children.getD []
      · simp [updateEntityChildren, hne, hmem]
      · simp only [updateEntityChildren, hne, ne_eq, not_false_iff, if_true, hmem, if_false]
        simp [List.mem_append]

theorem registerEntity_idem (e : UttEntity) (m : List (String × Entity)) :
    registerEntity e (registerEntity e m) = registerEntity e m := by
  simp only [registerEntity]
  rw [lookupA_mapSet_self, Option.getD_some, mapSet_mapSet, updateEntityChildren_idem]

/-- Claim C8: registering `"date::weekday"` yields one entity
`{name := "date", children := ["weekday"]}`; then registering
`"date::month"` appends to `children := ["weekday", "month"]` in
insertion order; re-registering `"date::weekday"` changes nothing, and in
general registration of the same span twice equals registering it once. -/
theorem c8_registerEntity_registry :
    registerEntity ⟨"date::weekday", 0, 0⟩ [] =
      [("date", ⟨"date", some ["weekday"]⟩)] ∧
    registerEntity ⟨"date::month", 0, 0⟩ (registerEntity ⟨"date::weekday", 0, 0⟩ []) =
      [("date", ⟨"date", some ["weekday", "month"]⟩)] ∧
    registerEntity ⟨"date::weekday", 0, 0⟩
        (registerEntity ⟨"date::month", 0, 0⟩ (registerEntity ⟨"date::weekday", 0, 0⟩ [])) =
      [("date", ⟨"date", some ["weekday", "month"]⟩)] ∧
    ∀ (e : UttEntity) (m : List (String × Entity)),
      registerEntity e (registerEntity e m) = registerEntity e m :=
  ⟨rfl, rfl, rfl, registerEntity_idem⟩

theorem foldl_recordSpan_fst_append (es : List (String × String))
    (acc : List UttEntity × String) :
    ∃ t, (es.foldl recordSpan acc).1 = acc.1 ++ t := by
  induction es generalizing acc with
  | nil => exact ⟨[], (List.append_nil _).symm⟩
  | cons e es ih =>
    obtain ⟨t, ht⟩ := ih (recordSpan acc e)
    refine ⟨⟨e.2, wordCount acc.2, wordCount (acc.2 ++ e.1) - 1⟩ :: t, ?_⟩
    rw [List.foldl_cons, ht]
    simp [recordSpan]

theorem buildStep_fst_append (part : String) (acc : List UttEntity × String) :
    ∃ t, (buildStep acc part).1 = acc.1 ++ t := by
  simp only [buildStep]
  split
  · exact ⟨[], (List.append_nil _).symm⟩
  · exact foldl_recordSpan_fst_append _ _

theorem foldl_buildStep_fst_append (parts : List String)
    (acc : List UttEntity × String) :
    ∃ t, (parts.foldl buildStep acc).1 = acc.1 ++ t := by
  induction parts generalizing acc with
  | nil => exact ⟨[], (List.append_nil _).symm⟩
  | cons p ps ih =>
    obtain ⟨t1, ht1⟩ := buildStep_fst_append p acc
    obtain ⟨t2, ht2⟩ := ih (buildStep acc p)
    exact ⟨t1 ++ t2, by rw [List.foldl_cons, ht2, ht1, List.append_assoc]⟩

/-- Claim C10: `tokenize` of the empty string is the singleton list with
the empty token, so `wordCount "" = 1` rather than 0; consequently every
sentence that begins with an entity tag (its tag-split starts with the
empty piece followed by a tag piece) gets a first recorded span with
`startPos = 1` — off by one relative to zero-based token positions. -/
theorem c10_leading_entity_startPos_one :
    tokenize "" = [""] ∧ wordCount "" = 1 ∧
    ∀ (culture : Culture) (s intent p : String) (ps : List String),
      splitTags (jsTrim s) = "" :: p :: ps →
      extractEntities p ≠ [] →
      ∃ e rest, (buildUtterance culture s intent).entities = e :: rest ∧ e.startPos = 1 := by
  refine ⟨rfl, rfl, ?_⟩
  intro culture s intent p ps hsplit hext
  cases hcase : extractEntities p with
  | nil => exact absurd hcase hext
  | cons e0 es =>
    have h2 : buildStep (([] : List UttEntity), "") p =
        es.foldl recordSpan (recordSpan ([], "") e0) := by
      unfold buildStep
      rw [hcase]
      rfl
    obtain ⟨t, ht⟩ := foldl_recordSpan_fst_append es (recordSpan ([], "") e0)
    obtain ⟨t', ht'⟩ := foldl_buildStep_fst_append ps (buildStep ([], "") p)
    refine ⟨⟨e0.2, 1, wordCount (("" : String) ++ e0.1) - 1⟩, t ++ t', ?_, rfl⟩
    show (buildUtterance culture s intent).entities = _
    unfold buildUtterance
    rw [hsplit]
    simp only [List.foldl_cons]
    have h1 : buildStep (([] : List UttEntity), "") "" = (([] : List UttEntity), "") := rfl
    rw [h1, ht', h2, ht]
    have h3 : recordSpan (([] : List UttEntity), "") e0 =
        ([⟨e0.2, 1, wordCount (("" : String) ++ e0.1) - 1⟩], ("" : String) ++ e0.1) := rfl
    rw [h3]
    simp

/-- Witness for `c10_leading_entity_startPos_one` at the sentence
`"[a:b] c"`, which begins with an entity tag. -/
theorem c10_witness :
    splitTags (jsTrim "[a:b] c") = "" :: "[a:b]" :: [" c"] ∧
    extractEntities "[a:b]" ≠ [] ∧
    ∃ e rest, (buildUtterance .enUs "[a:b] c" "i").entities = e :: rest ∧ e.startPos = 1 :=
  ⟨rfl, by decide,
    c10_leading_entity_startPos_one.2.2 .enUs "[a:b] c" "i" "[a:b]" [" c"] rfl (by decide)⟩

theorem procVal_id (done : List String) (cur key value : String)
    (st : Bool × List String) (h : containsStr cur (mkSearch key) = false) :
    procVal done cur key value st = st := by
  obtain ⟨present, rest⟩ := st
  simp [procVal, h]

theorem procVals_id (done : List String) (cur key : String) (vs : List String)
    (st : Bool × List String) (h : containsStr cur (mkSearch key) = false) :
    procVals done cur key vs st = st := by
  induction vs generalizing st with
  | nil => rfl
  | cons v vs ih => rw [procVals, procVal_id _ _ _ _ _ h, ih]

theorem procPairs_id (done : List String) (cur : String)
    (ps : List (String × List String)) (st : Bool × List String)
    (h : ∀ kv ∈ ps, containsStr cur (mkSearch kv.1) = false) :
    procPairs done cur ps st = st := by
  induction ps generalizing st with
  | nil => rfl
  | cons p ps ih =>
    rw [procPairs, procVals_id _ _ _ _ _ (h p (List.mem_cons_self _ _))]
    exact ih _ (fun kv hkv => h kv (List.mem_cons_of_mem _ hkv))

/-- Claim C2, counterexample: for the document
`{i: ["hi ${missing}"], list.${city}: ["madrid"]}` the placeholder
`${missing}` references no list, yet `parse` reports no error and
produces a complete model whose sole utterance still carries the
unresolved placeholder text. -/
theorem c2_counterexample :
    parse [("i", ["hi ${missing}"]), ("list.${city}", ["madrid"])] .enUs "now" 10 =
      Except.ok
        { luis_schema_version := "1.3.0"
          name := "tef"
          desc := "Bot Model now"
          culture := "en-us"
          intents := [⟨"i"⟩]
          entities := []
          composites := []
          bing_entities := []
          actions := []
          model_features := []
          regex_features := []
          utterances := [⟨"hi ${missing}", "i", []⟩] } := by
  rfl

/-- Claim C2, amended: a placeholder whose key is absent from the lists
map is silently left unresolved — expansion of a sentence none of whose
placeholders matches a list key returns the sentence unchanged (as a
singleton), with no error. -/
theorem c2_amended_unresolved_reference_kept (s : String)
    (vars : List (String × List String)) (fuel : Nat) (hf : 0 < fuel)
    (h : ∀ kv ∈ vars, containsStr s (mkSearch kv.1) = false) :
    expandVariables fuel s vars = some [s] := by
  obtain ⟨n, rfl⟩ : ∃ n, fuel = n + 1 :=
    ⟨fuel - 1, (Nat.succ_pred_eq_of_pos hf).symm⟩
  unfold expandVariables expandLoop
  rw [procPairs_id _ _ _ _ h]
  show expandLoop vars n ([] ++ [s]) [] = some [s]
  cases n <;> rfl

/-- Witness for `c2_amended_unresolved_reference_kept` at the sentence
`"hi ${missing}"` against the lists map `{city: ["madrid"]}`. -/
theorem c2_witness :
    0 < 1 ∧
    (∀ kv ∈ [("city", ["madrid"])], containsStr "hi ${missing}" (mkSearch kv.1) = false) ∧
    expandVariables 1 "hi ${missing}" [("city", ["madrid"])] = some ["hi ${missing}"] :=
  ⟨by decide, by decide,
    c2_amended_unresolved_reference_kept "hi ${missing}" [("city", ["madrid"])] 1
      (by decide) (by decide)⟩

/-- Claim C3 (code bug): the utterance `Set` holds freshly built objects
compared by reference, so structurally identical utterances built from
different sentence instances are *not* merged: the document
`{greet: ["hi  you", "hi you"]}` produces two structurally equal
utterances in the output collection. -/
theorem c3_duplicate_utterances_kept :
    (parse [("greet", ["hi  you", "hi you"])] .enUs "now" 10).map (fun m => m.utterances) =
      Except.ok [⟨"hi you", "greet", []⟩, ⟨"hi you", "greet", []⟩] ∧
    ¬ ([(⟨"hi you", "greet", []⟩ : Utterance), ⟨"hi you", "greet", []⟩].Nodup) := by
  exact ⟨rfl, by decide⟩

/-- Claim C4, counterexample: `desc` embeds `new Date()`, so two runs of
the pipeline on the identical document and culture but at different
times produce different models — the output is not a pure function of the
document. -/
theorem c4_counterexample :
    ∃ m1 m2 : Model,
      parse [("i", ["hi"])] .enUs "Mon Jan 01 2018" 10 = Except.ok m1 ∧
      parse [("i", ["hi"])] .enUs "Tue Jan 02 2018" 10 = Except.ok m2 ∧
      m1 ≠ m2 := by
  refine ⟨_, _, rfl, rfl, ?_⟩
  decide

/-- Claim C4, amended: apart from the timestamp-bearing `desc` field the
pipeline is a pure deterministic function of the document and culture:
erasing `desc`, two runs at arbitrary times agree exactly. -/
theorem c4_amended_pure_modulo_desc (doc : Document) (culture : Culture)
    (now1 now2 : String) (fuel : Nat) :
    eraseDesc (parse doc culture now1 fuel) = eraseDesc (parse doc culture now2 fuel) := by
  unfold parse
  cases validateIntentNames (intentKeys doc) with
  | error e => rfl
  | ok intentNames =>
    show eraseDesc ((fun st => _) <$>
        List.foldlM (processIntent culture fuel (buildReplacements doc) doc) ([], []) intentNames) =
      eraseDesc ((fun st => _) <$>
        List.foldlM (processIntent culture fuel (buildReplacements doc) doc) ([], []) intentNames)
    cases List.foldlM (processIntent culture fuel (buildReplacements doc) doc) ([], []) intentNames with
    | error e => rfl
    | ok st => rfl

theorem validateIntentNames_error {ks : List String}
    (h : ∃ k ∈ ks, 50 < k.length) : ∃ msg, validateIntentNames ks = Except.error msg := by
  induction ks with
  | nil => simp at h
  | cons k rest ih =>
    by_cases hk : 50 < k.length
    · exact ⟨"Intent \"" ++ k ++ "\" should be less than 50 characters. was "
        ++ toString k.length, by simp [validateIntentNames, hk]⟩
    · obtain ⟨b, hb, hblen⟩ := h
      rcases List.mem_cons.mp hb with rfl | hb
      · exact absurd hblen hk
      · obtain ⟨msg, hmsg⟩ := ih ⟨b, hb, hblen⟩
        exact ⟨msg, by simp [validateIntentNames, hk, hmsg, Except.map]⟩

theorem validateIntentNames_ok {ks : List String}
    (h : ∀ k ∈ ks, k.length ≤ 50) : validateIntentNames ks = Except.ok ks := by
  induction ks with
  | nil => rfl
  | cons k rest ih =>
    have hk : ¬ 50 < k.length := Nat.not_lt.mpr (h k (List.mem_cons_self _ _))
    simp [validateIntentNames, hk, ih (fun b hb => h b (List.mem_cons_of_mem _ hb)), Except.map]

/-- Claim C9: an intent key longer than 50 characters makes the whole run
abort with an error (no model and hence no utterance is produced), while
a list of intent names none longer than 50 characters passes validation
unchanged. -/
theorem c9_intent_name_length :
    (∀ (doc : Document) (culture : Culture) (now : String) (fuel : Nat),
      (∃ k ∈ intentKeys doc, 50 < k.length) →
      ∃ msg, parse doc culture now fuel = Except.error msg) ∧
    (∀ ks : List String, (∀ k ∈ ks, k.length ≤ 50) →
      validateIntentNames ks = Except.ok ks) := by
  constructor
  · intro doc culture now fuel h
    obtain ⟨msg, hmsg⟩ := validateIntentNames_error h
    refine ⟨msg, ?_⟩
    unfold parse
    rw [hmsg]
    rfl
  · exact fun ks h => validateIntentNames_ok h

/-- Witness for `c9_intent_name_length`: a 51-character intent name
aborts the run; the short name `"hi"` passes validation. -/
theorem c9_witness :
    (∃ k ∈ intentKeys [(String.mk (List.replicate 51 'a'), ["x"])], 50 < k.length) ∧
    (∃ msg, parse [(String.mk (List.replicate 51 'a'), ["x"])] .enUs "t" 1 =
      Except.error msg) ∧
    (∀ k ∈ ["hi"], k.length ≤ 50) ∧
    validateIntentNames ["hi"] = Except.ok ["hi"] := by
  have h1 : ∃ k ∈ intentKeys [(String.mk (List.replicate 51 'a'), ["x"])], 50 < k.length := by
    refine ⟨String.mk (List.replicate 51 'a'), ?_, by decide⟩
    decide
  have h2 : ∀ k ∈ ["hi"], k.length ≤ 50 := by decide
  exact ⟨h1, c9_intent_name_length.1 _ .enUs "t" 1 h1, h2, c9_intent_name_length.2 _ h2⟩

/-! ## Cross-product of the variable expansion (claim C5) -/

/-! ### `allPicks` combinatorics -/

theorem mem_allPicks_nil {α : Type} {σ : List α} :
    σ ∈ allPicks ([] : List (List α)) ↔ σ = [] := by
  simp [allPicks]

theorem mem_allPicks_cons {α : Type} {σ : List α} {l : List α} {ls : List (List α)} :
    σ ∈ allPicks (l :: ls) ↔ ∃ x ∈ l, ∃ τ ∈ allPicks ls, σ = x :: τ := by
  simp only [allPicks, List.mem_flatMap, List.mem_map]
  constructor
  · rintro ⟨x, hx, τ, hτ, rfl⟩
    exact ⟨x, hx, τ, hτ, rfl⟩
  · rintro ⟨x, hx, τ, hτ, rfl⟩
    exact ⟨x, hx, τ, hτ, rfl⟩

theorem allPicks_length {α : Type} (ls : List (List α)) :
    (allPicks ls).length = (ls.map List.length).prod := by
  induction ls with
  | nil => rfl
  | cons l ls ih =>
    simp only [allPicks, List.length_flatMap, List.map_map, List.map_cons, List.prod_cons]
    have : ∀ x : α, ((fun x => (allPicks ls).map (fun τ => x :: τ)) x).length =
        (allPicks ls).length := fun x => List.length_map _ _
    calc (l.map fun x => ((allPicks ls).map (fun τ => x :: τ)).length).sum
        = (l.map fun _ => (allPicks ls).length).sum := by
          congr 1
          exact List.map_congr_left (fun x _ => List.length_map _ _)
      _ = l.length * (allPicks ls).length := by
          induction l with
          | nil => simp
          | cons a l ihl => simp [ihl, Nat.succ_mul, Nat.add_comm]
      _ = l.length * (ls.map List.length).prod := by rw [ih]

theorem allPicks_mem_length {α : Type} {σ : List α} {ls : List (List α)}
    (h : σ ∈ allPicks ls) : σ.length = ls.length := by
  induction ls generalizing σ with
  | nil => simp [mem_allPicks_nil.mp h]
  | cons l ls ih =>
    obtain ⟨x, _, τ, hτ, rfl⟩ := mem_allPicks_cons.mp h
    simp [ih hτ]

theorem mem_allPicks_getElem {α : Type} {σ : List α} {ls : List (List α)}
    (h : σ ∈ allPicks ls) {j : Nat} {x : α} (hx : σ[j]? = some x) :
    ∃ l, ls[j]? = some l ∧ x ∈ l := by
  induction ls generalizing σ j with
  | nil => simp [mem_allPicks_nil.mp h] at hx
  | cons l ls ih =>
    obtain ⟨y, hy, τ, hτ, rfl⟩ := mem_allPicks_cons.mp h
    cases j with
    | zero =>
      simp only [List.getElem?_cons_zero, Option.some.injEq] at hx
      exact ⟨l, by simp, hx ▸ hy⟩
    | succ j =>
      simp only [List.getElem?_cons_succ] at hx ⊢
      exact ih hτ hx

theorem mem_allPicks_set {α : Type} {σ : List α} {ls : List (List α)}
    (h : σ ∈ allPicks ls) {j : Nat} {l : List α} {x : α}
    (hl : ls[j]? = some l) (hx : x ∈ l) : σ.set j x ∈ allPicks ls := by
  induction ls generalizing σ j with
  | nil => simp at hl
  | cons l0 ls ih =>
    obtain ⟨y, hy, τ, hτ, rfl⟩ := mem_allPicks_cons.mp h
    cases j with
    | zero =>
      simp only [List.getElem?_cons_zero, Option.some.injEq] at hl
      subst hl
      exact mem_allPicks_cons.mpr ⟨x, hx, τ, hτ, rfl⟩
    | succ j =>
      simp only [List.getElem?_cons_succ] at hl
      exact mem_allPicks_cons.mpr ⟨y, hy, τ.set j x, ih hτ hl, rfl⟩

/-! ### State lemmas -/

theorem initState_mem_allStates (vars : List (String × List String)) :
    initState vars ∈ allStates vars := by
  induction vars with
  | nil => simp [initState, allStates, mem_allPicks_nil]
  | cons p ps ih =>
    exact mem_allPicks_cons.mpr ⟨none, List.mem_cons_self _ _, initState ps, ih, rfl⟩

theorem allStates_length {vars : List (String × List String)} {σ : List (Option String)}
    (h : σ ∈ allStates vars) : σ.length = vars.length := by
  simpa using allPicks_mem_length h

theorem fullStates_length (vars : List (String × List String)) :
    (fullStates vars).length = (vars.map (fun p => p.2.length)).prod := by
  rw [fullStates, allPicks_length, List.map_map]
  congr 1
  exact List.map_congr_left (fun p _ => List.length_map _ _)

theorem fullStates_subset_allStates {vars : List (String × List String)}
    {φ : List (Option String)} (h : φ ∈ fullStates vars) : φ ∈ allStates vars := by
  induction vars generalizing φ with
  | nil => simpa [fullStates, allStates] using h
  | cons p ps ih =>
    obtain ⟨x, hx, τ, hτ, rfl⟩ := mem_allPicks_cons.mp h
    exact mem_allPicks_cons.mpr ⟨x, List.mem_cons_of_mem _ hx, τ, ih hτ, rfl⟩

theorem mem_fullStates_stFull {vars : List (String × List String)}
    {φ : List (Option String)} (h : φ ∈ fullStates vars) : stFull φ = true := by
  induction vars generalizing φ with
  | nil =>
    rw [show φ = [] from mem_allPicks_nil.mp h]
    rfl
  | cons p ps ih =>
    obtain ⟨x, hx, τ, hτ, rfl⟩ := mem_allPicks_cons.mp h
    obtain ⟨v, _, rfl⟩ := List.mem_map.mp hx
    simpa [stFull] using ih hτ

theorem stFull_mem_fullStates {vars : List (String × List String)}
    {σ : List (Option String)} (h : σ ∈ allStates vars) (hf : stFull σ = true) :
    σ ∈ fullStates vars := by
  induction vars generalizing σ with
  | nil => simpa [allStates, fullStates, mem_allPicks_nil] using h
  | cons p ps ih =>
    obtain ⟨x, hx, τ, hτ, rfl⟩ := mem_allPicks_cons.mp h
    simp only [stFull, List.all_cons, Bool.and_eq_true] at hf
    rcases List.mem_cons.mp hx with rfl | hx
    · simp at hf
    · exact mem_allPicks_cons.mpr ⟨x, hx, τ, ih hτ hf.2, rfl⟩

theorem allStates_getElem {vars : List (String × List String)}
    {σ : List (Option String)} (h : σ ∈ allStates vars) {j : Nat} {o : Option String}
    (ho : σ[j]? = some o) :
    ∃ p, vars[j]? = some p ∧ (o = none ∨ ∃ v ∈ p.2, o = some v) := by
  obtain ⟨l, hl, hol⟩ := mem_allPicks_getElem h ho
  rw [List.getElem?_map] at hl
  cases hp : vars[j]? with
  | none => simp [hp] at hl
  | some p =>
    refine ⟨p, rfl, ?_⟩
    simp only [hp, Option.map_some', Option.some.injEq] at hl
    subst hl
    rcases List.mem_cons.mp hol with rfl | hol
    · exact Or.inl rfl
    · obtain ⟨v, hv, rfl⟩ := List.mem_map.mp hol
      exact Or.inr ⟨v, hv, rfl⟩

theorem allStates_set {vars : List (String × List String)}
    {σ : List (Option String)} (h : σ ∈ allStates vars) {j : Nat}
    {p : String × List String} {v : String}
    (hp : vars[j]? = some p) (hv : v ∈ p.2) : σ.set j (some v) ∈ allStates vars := by
  refine mem_allPicks_set h (l := (none : Option String) :: p.2.map some) (x := some v) ?_ ?_
  · rw [List.getElem?_map, hp]
    rfl
  · exact List.mem_cons_of_mem _ (List.mem_map.mpr ⟨v, hv, rfl⟩)

theorem mem_fullStates_getElem {vars : List (String × List String)}
    {φ : List (Option String)} (h : φ ∈ fullStates vars) {j : Nat}
    {p : String × List String} (hp : vars[j]? = some p) :
    ∃ v ∈ p.2, φ[j]? = some (some v) := by
  induction vars generalizing φ j with
  | nil => simp at hp
  | cons q ps ih =>
    obtain ⟨x, hx, τ, hτ, rfl⟩ := mem_allPicks_cons.mp h
    cases j with
    | zero =>
      simp only [List.getElem?_cons_zero, Option.some.injEq] at hp
      subst hp
      obtain ⟨v, hv, rfl⟩ := List.mem_map.mp hx
      exact ⟨v, hv, by simp⟩
    | succ j =>
      simp only [List.getElem?_cons_succ] at hp ⊢
      exact ih hτ hp

theorem unsub_initState (vars : List (String × List String)) :
    unsub (initState vars) = vars.length := by
  induction vars with
  | nil => rfl
  | cons p ps ih => simpa [initState, unsub, List.filter] using ih

theorem stFull_unsub_zero {σ : List (Option String)} (h : stFull σ = true) :
    unsub σ = 0 := by
  induction σ with
  | nil => rfl
  | cons o rest ih =>
    simp only [stFull, List.all_cons, Bool.and_eq_true] at h
    cases o with
    | none => simp at h
    | some v => simpa [unsub, List.filter] using ih h.2

theorem unsub_cons_none (rest : List (Option String)) :
    unsub ((none : Option String) :: rest) = unsub rest + 1 := by
  simp [unsub, List.filter]

theorem unsub_cons_some (w : String) (rest : List (Option String)) :
    unsub (some w :: rest) = unsub rest := by
  simp [unsub, List.filter]

theorem unsub_set_none {σ : List (Option String)} {j : Nat} {v : String}
    (h : σ[j]? = some none) :
    1 ≤ unsub σ ∧ unsub (σ.set j (some v)) = unsub σ - 1 := by
  induction σ generalizing j with
  | nil => simp at h
  | cons o rest ih =>
    cases j with
    | zero =>
      simp only [List.getElem?_cons_zero, Option.some.injEq] at h
      subst h
      simp [List.set, unsub_cons_none, unsub_cons_some]
    | succ j =>
      simp only [List.getElem?_cons_succ] at h
      obtain ⟨h1, h2⟩ := ih h
      have hset : (o :: rest).set (j + 1) (some v) = o :: rest.set j (some v) := rfl
      cases o with
      | none =>
        rw [hset, unsub_cons_none, unsub_cons_none, h2]
        omega
      | some w =>
        rw [hset, unsub_cons_some, unsub_cons_some, h2]
        omega

theorem stFull_false_exists {σ : List (Option String)} (h : ¬ stFull σ = true) :
    ∃ j : Nat, σ[j]? = some none := by
  rw [stFull, List.all_eq_true] at h
  push_neg at h
  obtain ⟨o, ho, hno⟩ := h
  obtain ⟨j, hj⟩ := List.mem_iff_getElem?.mp ho
  cases o with
  | none => exact ⟨j, hj⟩
  | some v => simp at hno

theorem stLE_initState (vars : List (String × List String)) (φ : List (Option String)) :
    stLE (initState vars) φ := by
  intro i v hi
  simp only [initState, List.getElem?_map] at hi
  cases h : vars[i]? <;> simp [h] at hi

theorem stLE_full_eq {vars : List (String × List String)}
    {σ φ : List (Option String)} (hσ : σ ∈ allStates vars) (hφ : φ ∈ allStates vars)
    (hf : stFull σ = true) (hle : stLE σ φ) : σ = φ := by
  have hlen : σ.length = φ.length := by
    rw [allStates_length hσ, allStates_length hφ]
  apply List.ext_getElem?
  intro n
  cases hn : σ[n]? with
  | none =>
    rw [List.getElem?_eq_none_iff] at hn
    rw [List.getElem?_eq_none (hlen ▸ hn)]
  | some o =>
    have hmem := List.getElem?_mem hn
    rw [stFull, List.all_eq_true] at hf
    have := hf o hmem
    cases o with
    | none => simp at this
    | some v =>
      rw [hle n v hn]

theorem stLE_set {σ φ : List (Option String)} {j : Nat} {v : String}
    (hle : stLE σ φ) (hj : σ[j]? = some none) (hφ : φ[j]? = some (some v)) :
    stLE (σ.set j (some v)) φ := by
  intro i w hi
  by_cases hij : i = j
  · subst hij
    have hlt : i < σ.length := by
      by_contra hge
      rw [List.getElem?_eq_none (Nat.le_of_not_lt hge)] at hj
      exact Option.noConfusion hj
    rw [List.getElem?_set_self hlt] at hi
    cases hi
    exact hφ
  · rw [List.getElem?_set_ne (fun h => hij h.symm)] at hi
    exact hle i w hi

/-! ### `filterNew` lemmas -/

theorem filterNew_append {α : Type} [DecidableEq α] (b xs ys : List α) :
    filterNew b (xs ++ ys) = filterNew b xs ++ filterNew (b ++ filterNew b xs) ys := by
  induction xs generalizing b with
  | nil => simp [filterNew]
  | cons x xs ih =>
    show filterNew b (x :: (xs ++ ys)) = _
    by_cases hx : x ∈ b
    · rw [filterNew, if_pos hx, ih]
      rw [show filterNew b (x :: xs) = filterNew b xs from by rw [filterNew, if_pos hx]]
    · rw [filterNew, if_neg hx, ih]
      rw [show filterNew b (x :: xs) = x :: filterNew (b ++ [x]) xs from by
        rw [filterNew, if_neg hx]]
      rw [List.cons_append]
      rw [List.append_cons b x (filterNew (b ++ [x]) xs)]

theorem mem_filterNew_subset {α : Type} [DecidableEq α] {y : α} {b xs : List α}
    (h : y ∈ filterNew b xs) : y ∈ xs := by
  induction xs generalizing b with
  | nil => simp [filterNew] at h
  | cons x xs ih =>
    by_cases hx : x ∈ b
    · simp only [filterNew, hx, if_true] at h
      exact List.mem_cons_of_mem _ (ih h)
    · simp only [filterNew, hx, if_false] at h
      rcases List.mem_cons.mp h with rfl | h
      · exact List.mem_cons_self _ _
      · exact List.mem_cons_of_mem _ (ih h)

theorem mem_filterNew_complete {α : Type} [DecidableEq α] {x : α} {b xs : List α}
    (h : x ∈ xs) : x ∈ filterNew b xs ∨ x ∈ b := by
  induction xs generalizing b with
  | nil => simp at h
  | cons x0 xs ih =>
    by_cases hx0 : x0 ∈ b
    · simp only [filterNew, hx0, if_true]
      rcases List.mem_cons.mp h with rfl | h
      · exact Or.inr hx0
      · exact ih h
    · simp only [filterNew, hx0, if_false]
      rcases List.mem_cons.mp h with rfl | h
      · exact Or.inl (List.mem_cons_self _ _)
      · rcases ih (b := b ++ [x0]) h with hin | hin
        · exact Or.inl (List.mem_cons_of_mem _ hin)
        · rcases List.mem_append.mp hin with hin | hin
          · exact Or.inr hin
          · exact Or.inl (List.mem_singleton.mp hin ▸ List.mem_cons_self _ _)

theorem filterNew_nodup_fresh {α : Type} [DecidableEq α] (b xs : List α) :
    (filterNew b xs).Nodup ∧ ∀ y ∈ filterNew b xs, y ∉ b := by
  induction xs generalizing b with
  | nil => simp [filterNew]
  | cons x xs ih
  => by_cases hx : x ∈ b
     · simpa [filterNew, hx] using ih b
     · obtain ⟨hnd, hfresh⟩ := ih (b ++ [x])
       simp only [filterNew, hx, if_false]
       constructor
       · refine List.nodup_cons.mpr ⟨fun hmem => ?_, hnd⟩
         exact hfresh x hmem (List.mem_append.mpr (Or.inr (List.mem_singleton.mpr rfl)))
       · intro y hy hyb
         rcases List.mem_cons.mp hy with rfl | hy
         · exact hx hyb
         · exact hfresh y hy (List.mem_append.mpr (Or.inl hyb))

theorem filterNew_length_le {α : Type} [DecidableEq α] (b xs : List α) :
    (filterNew b xs).length ≤ xs.length := by
  induction xs generalizing b with
  | nil => simp [filterNew]
  | cons x xs ih =>
    by_cases hx : x ∈ b
    · simp only [filterNew, hx, if_true]
      exact Nat.le_succ_of_le (ih b)
    · simp only [filterNew, hx, if_false, List.length_cons]
      exact Nat.succ_le_succ (ih _)

theorem filterNew_map {α β : Type} [DecidableEq α] [DecidableEq β] (f : α → β)
    (S : List α) (hinj : ∀ x ∈ S, ∀ y ∈ S, f x = f y → x = y) :
    ∀ (cs b : List α), (∀ x ∈ cs, x ∈ S) → (∀ x ∈ b, x ∈ S) →
      (filterNew b cs).map f = filterNew (b.map f) (cs.map f)
  | [], b, _, _ => by simp [filterNew]
  | c :: cs, b, hcs, hb => by
    have hcS : c ∈ S := hcs c (List.mem_cons_self _ _)
    have hmemiff : f c ∈ b.map f ↔ c ∈ b := by
      constructor
      · intro hfc
        obtain ⟨y, hy, hfy⟩ := List.mem_map.mp hfc
        rw [hinj y (hb y hy) c hcS hfy] at hy
        exact hy
      · exact fun h => List.mem_map.mpr ⟨c, h, rfl⟩
    by_cases hc : c ∈ b
    · simp only [List.map_cons, filterNew, hc, if_true, hmemiff.mpr hc, if_true]
      exact filterNew_map f S hinj cs b (fun x hx => hcs x (List.mem_cons_of_mem _ hx)) hb
    · simp only [List.map_cons, filterNew, hc, if_false, hmemiff, if_false]
      rw [filterNew_map f S hinj cs (b ++ [c])
        (fun x hx => hcs x (List.mem_cons_of_mem _ hx))
        (fun x hx => by
          rcases List.mem_append.mp hx with hx | hx
          · exact hb x hx
          · exact List.mem_singleton.mp hx ▸ hcS)]
      simp

/-! ### `childrenAux` lemmas -/

theorem childrenAux_sound {σ : List (Option String)} {τ : List (Option String)} :
    ∀ {m : Nat} {ps : List (String × List String)}, τ ∈ childrenAux σ m ps →
      ∃ i p v, ps[i]? = some p ∧ σ[m + i]? = some none ∧ v ∈ p.2 ∧
        τ = σ.set (m + i) (some v)
  | m, [], h => by simp [childrenAux] at h
  | m, (k, vs) :: ps, h => by
    rw [childrenAux] at h
    rcases List.mem_append.mp h with h | h
    · cases hm : σ[m]? with
      | none => rw [hm] at h; simp at h
      | some o =>
        cases o with
        | none =>
          rw [hm] at h
          obtain ⟨v, hv, rfl⟩ := List.mem_map.mp h
          exact ⟨0, (k, vs), v, by simp, by simpa using hm, hv, by simp⟩
        | some w => rw [hm] at h; simp at h
    · obtain ⟨i, p, v, hp, hσ, hv, rfl⟩ := childrenAux_sound h
      exact ⟨i + 1, p, v, by simpa using hp, by rw [Nat.add_comm i 1, ← Nat.add_assoc]; exact hσ,
        hv, by rw [Nat.add_comm i 1, ← Nat.add_assoc]⟩

theorem childrenAux_complete {σ : List (Option String)} {v : String}
    {p : String × List String} :
    ∀ {m i : Nat} {ps : List (String × List String)}, ps[i]? = some p →
      σ[m + i]? = some none → v ∈ p.2 → σ.set (m + i) (some v) ∈ childrenAux σ m ps
  | m, i, [], hp, _, _ => by simp at hp
  | m, 0, (k, vs) :: ps, hp, hσ, hv => by
    simp only [List.getElem?_cons_zero, Option.some.injEq] at hp
    subst hp
    rw [childrenAux]
    refine List.mem_append.mpr (Or.inl ?_)
    rw [Nat.add_zero] at hσ ⊢
    rw [hσ]
    exact List.mem_map.mpr ⟨v, hv, rfl⟩
  | m, i + 1, (k, vs) :: ps, hp, hσ, hv => by
    simp only [List.getElem?_cons_succ] at hp
    rw [childrenAux]
    refine List.mem_append.mpr (Or.inr ?_)
    have : m + (i + 1) = (m + 1) + i := by omega
    rw [this] at hσ ⊢
    exact childrenAux_complete hp hσ hv

theorem childrenAux_length (σ : List (Option String)) :
    ∀ (m : Nat) (ps : List (String × List String)),
      (childrenAux σ m ps).length ≤ (ps.map (fun p => p.2.length)).sum
  | m, [] => by simp [childrenAux]
  | m, (k, vs) :: ps => by
    rw [childrenAux]
    simp only [List.length_append, List.map_cons, List.sum_cons]
    have h2 := childrenAux_length σ (m + 1) ps
    have h1 : (match σ[m]? with
        | some none => vs.map (fun v => σ.set m (some v))
        | _ => []).length ≤ vs.length := by
      cases hm : σ[m]? with
      | none => simp
      | some o => cases o with
        | none => simp
        | some w => simp
    omega

theorem childrenAux_of_full {σ : List (Option String)} (hf : stFull σ = true) :
    ∀ (m : Nat) (ps : List (String × List String)), childrenAux σ m ps = []
  | m, [] => rfl
  | m, (k, vs) :: ps => by
    rw [childrenAux]
    have h1 : (match σ[m]? with
        | some none => vs.map (fun v => σ.set m (some v))
        | _ => []) = [] := by
      cases hm : σ[m]? with
      | none => rfl
      | some o =>
        cases o with
        | none =>
          exfalso
          have hmem := List.getElem?_mem hm
          rw [stFull, List.all_eq_true] at hf
          simpa using hf _ hmem
        | some w => rfl
    rw [h1, childrenAux_of_full hf (m + 1) ps]
    rfl

/-! ### Simulation of the concrete traversal by abstract states -/

theorem procVals_subst (done : List String) (cur k : String) (cr : String → String)
    (hcontains : containsStr cur (mkSearch k) = true) :
    ∀ (vs : List String) (present : Bool) (rest : List String), cur ∉ rest →
      (∀ v ∈ vs, jsReplace cur (mkSearch k) v = cr v ∧ cr v ≠ cur) →
      procVals done cur k vs (present, rest) =
        (present && vs.isEmpty, rest ++ filterNew (done ++ rest) (vs.map cr))
  | [], present, rest, _, _ => by simp [procVals, filterNew]
  | v :: vs, present, rest, hrest, hvs => by
    obtain ⟨hrep, hne⟩ := hvs v (List.mem_cons_self _ _)
    have hstep : procVal done cur k v (present, rest) =
        (false, if cr v ∈ done ∨ cr v ∈ rest then rest else rest ++ [cr v]) := by
      rw [procVal, if_pos hcontains]
      simp only [hrep, if_neg hne, addIfAbsent]
      have hcond : (cr v ∈ done ∨ present = true ∧ cr v = cur ∨ cr v ∈ rest) ↔
          (cr v ∈ done ∨ cr v ∈ rest) := by
        constructor
        · rintro (h | ⟨_, h⟩ | h)
          · exact Or.inl h
          · exact absurd h hne
          · exact Or.inr h
        · rintro (h | h)
          · exact Or.inl h
          · exact Or.inr (Or.inr h)
      by_cases hmem : cr v ∈ done ∨ cr v ∈ rest
      · rw [if_pos (hcond.mpr hmem), if_pos hmem, List.erase_of_not_mem hrest]
      · rw [if_neg (fun hc => hmem (hcond.mp hc)), if_neg hmem,
          List.erase_of_not_mem]
        intro hc
        rcases List.mem_append.mp hc with hc | hc
        · exact hrest hc
        · exact hne (List.mem_singleton.mp hc).symm
    rw [procVals, hstep]
    by_cases hmem : cr v ∈ done ∨ cr v ∈ rest
    · rw [if_pos hmem]
      rw [procVals_subst done cur k cr hcontains vs false rest hrest
        (fun w hw => hvs w (List.mem_cons_of_mem _ hw))]
      have : filterNew (done ++ rest) (cr v :: vs.map cr) =
          filterNew (done ++ rest) (vs.map cr) := by
        rw [filterNew, if_pos (List.mem_append.mpr hmem)]
      simp [this]
    · rw [if_neg hmem]
      have hrest2 : cur ∉ rest ++ [cr v] := by
        intro hc
        rcases List.mem_append.mp hc with hc | hc
        · exact hrest hc
        · exact hne (List.mem_singleton.mp hc).symm
      rw [procVals_subst done cur k cr hcontains vs false (rest ++ [cr v]) hrest2
        (fun w hw => hvs w (List.mem_cons_of_mem _ hw))]
      have hfn : filterNew (done ++ rest) (cr v :: vs.map cr) =
          cr v :: filterNew ((done ++ rest) ++ [cr v]) (vs.map cr) := by
        rw [filterNew, if_neg (fun hc => hmem (List.mem_append.mp hc))]
      rw [List.map_cons, hfn]
      simp [List.append_assoc]

theorem render_inj_on {vars : List (String × List String)}
    {render : List (Option String) → String}
    (hinj : ((allStates vars).map render).Nodup)
    {σ τ : List (Option String)} (hσ : σ ∈ allStates vars) (hτ : τ ∈ allStates vars)
    (h : render σ = render τ) : σ = τ :=
  List.inj_on_of_nodup_map hinj hσ hτ h

theorem procPairs_subst (vars : List (String × List String))
    (render : List (Option String) → String)
    (hne : ∀ p ∈ vars, p.2 ≠ [])
    (hinj : ((allStates vars).map render).Nodup)
    (hren : RendersFaithfully vars render)
    (σ : List (Option String)) (hσ : σ ∈ allStates vars)
    (done : List String) :
    ∀ (ps : List (String × List String)) (m : Nat) (present : Bool) (rest : List String),
      vars.drop m = ps → render σ ∉ rest →
      procPairs done (render σ) ps (present, rest) =
        (present && stFull (σ.drop m),
         rest ++ filterNew (done ++ rest) ((childrenAux σ m ps).map render))
  | [], m, present, rest, hdrop, _ => by
    have hlen : vars.length ≤ m := by
      by_contra hlt
      rw [List.drop_eq_getElem_cons (Nat.lt_of_not_le hlt)] at hdrop
      exact List.noConfusion hdrop
    have hσdrop : σ.drop m = [] := by
      rw [List.drop_eq_nil_iff]
      rw [allStates_length hσ]
      exact hlen
    simp [procPairs, hσdrop, stFull, childrenAux, filterNew]
  | (k, vs) :: ps', m, present, rest, hdrop, hrest => by
    have hmlt : m < vars.length := by
      by_contra hge
      rw [List.drop_eq_nil_of_le (Nat.le_of_not_lt hge)] at hdrop
      exact List.noConfusion hdrop
    have hm' : vars[m]? = some (k, vs) := by
      have := List.getElem?_drop vars m 0
      rw [hdrop] at this
      simpa using this.symm
    have hdrop' : vars.drop (m + 1) = ps' := by
      have h1 : vars.drop (m + 1) = (vars.drop m).drop 1 := by
        rw [List.drop_drop]
      rw [h1, hdrop]
      rfl
    have hσlt : m < σ.length := by rw [allStates_length hσ]; exact hmlt
    have hjp : (m, (k, vs)) ∈ vars.enum :=
      List.mem_enum_iff_getElem?.mpr (by simp [hm'])
    have hcond := hren σ hσ (m, (k, vs)) hjp
    obtain ⟨o, ho⟩ : ∃ o, σ[m]? = some o := by
      cases hσm : σ[m]? with
      | none =>
        rw [List.getElem?_eq_none_iff] at hσm
        omega
      | some o => exact ⟨o, rfl⟩
    have hgetD : σ.getD m none = o := by
      rw [List.getD_eq_getElem?_getD, ho]
      rfl
    have hσdrop : σ.drop m = o :: σ.drop (m + 1) := by
      rw [List.drop_eq_getElem_cons hσlt]
      have h2 := List.getElem?_eq_getElem hσlt
      rw [h2] at ho
      rw [Option.some.inj ho]
    cases o with
    | some w =>
      rw [hgetD] at hcond
      simp only [Option.isSome_some, if_true] at hcond
      rw [procPairs, procVals_id _ _ _ _ _ hcond]
      rw [procPairs_subst vars render hne hinj hren σ hσ done ps' (m + 1)
        present rest hdrop' hrest]
      have hchild : childrenAux σ m ((k, vs) :: ps') = childrenAux σ (m + 1) ps' := by
        rw [childrenAux, ho]
        exact List.nil_append _
      rw [hchild, hσdrop]
      simp [stFull]
    | none =>
      rw [hgetD] at hcond
      simp only [Option.isSome_none, Bool.false_eq_true, if_false] at hcond
      obtain ⟨hcontains, hrep⟩ := hcond
      have hvsne : vs ≠ [] := hne (k, vs) (List.getElem?_mem hm')
      set cr : String → String := fun v => render (σ.set m (some v)) with hcr
      have hcrprop : ∀ v ∈ vs, jsReplace (render σ) (mkSearch k) v = cr v ∧ cr v ≠ render σ := by
        intro v hv
        refine ⟨hrep v hv, ?_⟩
        intro heq
        have hτ : σ.set m (some v) ∈ allStates vars := allStates_set hσ hm' hv
        have := render_inj_on hinj hτ hσ heq
        have hgot : (σ.set m (some v))[m]? = some (some v) := by
          rw [List.getElem?_set_self hσlt]
        rw [this] at hgot
        rw [ho] at hgot
        exact Option.noConfusion (Option.some.inj hgot)
      rw [procPairs, procVals_subst done (render σ) k cr hcontains vs present rest hrest hcrprop]
      have hvse : vs.isEmpty = false := by
        cases vs with
        | nil => exact absurd rfl hvsne
        | cons a l => rfl
      rw [hvse, Bool.and_false]
      set F1 := filterNew (done ++ rest) (vs.map cr) with hF1
      have hrest2 : render σ ∉ rest ++ F1 := by
        intro hc
        rcases List.mem_append.mp hc with hc | hc
        · exact hrest hc
        · have := mem_filterNew_subset hc
          obtain ⟨v, hv, hveq⟩ := List.mem_map.mp this
          exact (hcrprop v hv).2 hveq
      rw [procPairs_subst vars render hne hinj hren σ hσ done ps' (m + 1)
        false (rest ++ F1) hdrop' hrest2]
      have hchild : childrenAux σ m ((k, vs) :: ps') =
          (vs.map (fun v => σ.set m (some v))) ++ childrenAux σ (m + 1) ps' := by
        rw [childrenAux, ho]
      rw [hchild, hσdrop]
      simp only [List.map_append, List.map_map, Bool.and_false, Bool.false_and, stFull,
        List.all_cons, Option.isSome_none, Bool.false_and, Bool.and_false]
      have hmapcr : (vs.map (fun v => σ.set m (some v))).map render = vs.map cr := by
        rw [List.map_map]
        rfl
      rw [filterNew_append]
      have hcomp : List.map (render ∘ fun v => σ.set m (some v)) vs = List.map cr vs := rfl
      rw [hcomp, ← hF1]
      simp [List.append_assoc]

theorem potT_append (b : Nat) (t1 t2 : List (List (Option String))) :
    potT b (t1 ++ t2) = potT b t1 + potT b t2 := by
  simp [potT]

theorem potT_cons (b : Nat) (σ : List (Option String)) (t : List (List (Option String))) :
    potT b (σ :: t) = stepPot b σ + potT b t := by
  simp [potT]

theorem potT_le_of_unsub (b u : Nat) (t : List (List (Option String)))
    (h : ∀ τ ∈ t, unsub τ = u) : potT b t = t.length * b ^ u := by
  induction t with
  | nil => simp [potT]
  | cons τ t ih =>
    rw [potT_cons, ih (fun κ hκ => h κ (List.mem_cons_of_mem _ hκ))]
    rw [stepPot, h τ (List.mem_cons_self _ _)]
    simp [List.length_cons, Nat.succ_mul, Nat.add_comm]

theorem expandLoop_nil (vars : List (String × List String)) (fuel : Nat)
    (done : List String) : expandLoop vars fuel done [] = some done := by
  cases fuel <;> rfl

theorem expandLoop_sim (vars : List (String × List String))
    (render : List (Option String) → String)
    (hne : ∀ p ∈ vars, p.2 ≠ [])
    (hinj : ((allStates vars).map render).Nodup)
    (hren : RendersFaithfully vars render) :
    ∀ (fuel : Nat) (Δ T : List (List (Option String))),
      (∀ δ ∈ Δ, δ ∈ fullStates vars) →
      (∀ τ ∈ T, τ ∈ allStates vars) →
      (Δ ++ T).Nodup →
      (∀ φ ∈ fullStates vars, φ ∈ Δ ∨ ∃ τ ∈ T, stLE τ φ) →
      potT (1 + sumLens vars) T ≤ fuel →
      ∃ D : List (List (Option String)), expandLoop vars fuel (Δ.map render) (T.map render) = some (D.map render) ∧
        (∀ δ ∈ D, δ ∈ fullStates vars) ∧ D.Nodup ∧ ∀ φ ∈ fullStates vars, φ ∈ D := by
  intro fuel
  induction fuel with
  | zero =>
    intro Δ T hΔ hT hnd hcompl hpot
    cases T with
    | nil =>
      refine ⟨Δ, expandLoop_nil vars 0 _, hΔ, by simpa using hnd, ?_⟩
      intro φ hφ
      rcases hcompl φ hφ with h | ⟨τ, hτ, _⟩
      · exact h
      · cases hτ
    | cons σ T' =>
      exfalso
      have hb : 0 < 1 + sumLens vars := by omega
      have h1 : 1 ≤ stepPot (1 + sumLens vars) σ := Nat.pow_pos hb
      rw [potT_cons] at hpot
      omega
  | succ f ih =>
    intro Δ T hΔ hT hnd hcompl hpot
    cases T with
    | nil =>
      refine ⟨Δ, expandLoop_nil vars _ _, hΔ, by simpa using hnd, ?_⟩
      intro φ hφ
      rcases hcompl φ hφ with h | ⟨τ, hτ, _⟩
      · exact h
      · cases hτ
    | cons σ T' =>
      have hb : 0 < 1 + sumLens vars := by omega
      set b := 1 + sumLens vars with hbdef
      have hσall : σ ∈ allStates vars := hT σ (List.mem_cons_self _ _)
      -- σ is not elsewhere in the worklist
      have hndΔ : Δ.Nodup := ((List.nodup_append).mp hnd).1
      have hndσT : (σ :: T').Nodup := ((List.nodup_append).mp hnd).2.1
      have hdisj : Δ.Disjoint (σ :: T') := ((List.nodup_append).mp hnd).2.2
      have hσΔ : σ ∉ Δ := fun hc => hdisj hc (List.mem_cons_self _ _)
      have hσT' : σ ∉ T' := (List.nodup_cons.mp hndσT).1
      have hcurΔ : render σ ∉ Δ.map render := by
        intro hc
        obtain ⟨δ, hδ, hδeq⟩ := List.mem_map.mp hc
        rw [render_inj_on hinj (fullStates_subset_allStates (hΔ δ hδ)) hσall hδeq] at hδ
        exact hσΔ hδ
      have hcurT' : render σ ∉ T'.map render := by
        intro hc
        obtain ⟨τ, hτ, hτeq⟩ := List.mem_map.mp hc
        rw [render_inj_on hinj (hT τ (List.mem_cons_of_mem _ hτ)) hσall hτeq] at hτ
        exact hσT' hτ
      -- the concrete step
      have hstep0 := procPairs_subst vars render hne hinj hren σ hσall (Δ.map render)
        vars 0 true (T'.map render) (List.drop_zero vars) hcurT'
      rw [List.drop_zero, Bool.true_and] at hstep0
      have hstep : procPairs (Δ.map render) (render σ) vars (true, T'.map render) =
          (stFull σ, T'.map render ++ filterNew (Δ.map render ++ T'.map render)
            ((childrenOf σ vars).map render)) := hstep0
      -- children at state level
      have hchildall : ∀ κ ∈ childrenOf σ vars, κ ∈ allStates vars := by
        intro κ hκ
        obtain ⟨i, p, v, hp, hσi, hv, rfl⟩ := childrenAux_sound hκ
        rw [Nat.zero_add] at hσi ⊢
        exact allStates_set hσall hp hv
      have hblockall : ∀ x ∈ Δ ++ T', x ∈ allStates vars := by
        intro x hx
        rcases List.mem_append.mp hx with hx | hx
        · exact fullStates_subset_allStates (hΔ x hx)
        · exact hT x (List.mem_cons_of_mem _ hx)
      set sKids := filterNew (Δ ++ T') (childrenOf σ vars) with hsKids
      have hmapkids : sKids.map render =
          filterNew (Δ.map render ++ T'.map render) ((childrenOf σ vars).map render) := by
        rw [hsKids, filterNew_map render (allStates vars) (fun x hx y hy h =>
          render_inj_on hinj hx hy h) (childrenOf σ vars) (Δ ++ T') hchildall hblockall]
        rw [List.map_append]
      -- kids are new states of smaller unsub
      have hkidsub : ∀ κ ∈ sKids, κ ∈ childrenOf σ vars :=
        fun κ hκ => mem_filterNew_subset hκ
      obtain ⟨hkidsnd, hkidsfresh⟩ := filterNew_nodup_fresh (Δ ++ T') (childrenOf σ vars)
      rw [← hsKids] at hkidsnd hkidsfresh
      have hkidsne : ∀ κ ∈ sKids, κ ≠ σ := by
        intro κ hκ hκeq
        obtain ⟨i, p, v, hp, hσi, hv, hκdef⟩ := childrenAux_sound (hkidsub κ hκ)
        rw [Nat.zero_add] at hσi hκdef
        have hlt : i < σ.length := by
          by_contra hge
          rw [List.getElem?_eq_none (Nat.le_of_not_lt hge)] at hσi
          exact Option.noConfusion hσi
        have : κ[i]? = some (some v) := by
          rw [hκdef, List.getElem?_set_self hlt]
        rw [hκeq, hσi] at this
        exact Option.noConfusion (Option.some.inj this)
      -- invariants for the recursive call
      have hΔ' : ∀ δ ∈ (if stFull σ then Δ ++ [σ] else Δ), δ ∈ fullStates vars := by
        split
        · intro δ hδ
          rcases List.mem_append.mp hδ with hδ | hδ
          · exact hΔ δ hδ
          · rw [List.mem_singleton.mp hδ]
            exact stFull_mem_fullStates hσall (by assumption)
        · exact hΔ
      have hT'' : ∀ τ ∈ T' ++ sKids, τ ∈ allStates vars := by
        intro τ hτ
        rcases List.mem_append.mp hτ with hτ | hτ
        · exact hT τ (List.mem_cons_of_mem _ hτ)
        · exact hchildall τ (hkidsub τ hτ)
      have hnd'' : ((if stFull σ then Δ ++ [σ] else Δ) ++ (T' ++ sKids)).Nodup := by
        have hndbase : (Δ ++ T').Nodup := by
          refine List.Nodup.sublist ?_ hnd
          exact List.Sublist.append_left (List.sublist_cons_self _ _) Δ
        cases hfull : stFull σ with
        | true =>
          have hkidsnil : sKids = [] := by
            rw [hsKids, childrenOf, childrenAux_of_full hfull]
            rfl
          rw [hkidsnil, List.append_nil]
          have : Δ ++ [σ] ++ T' = Δ ++ σ :: T' := by
            rw [List.append_assoc]
            rfl
          simpa [this] using hnd
        | false =>
          simp only [Bool.false_eq_true, if_false]
          have hdisj2 : (Δ ++ T').Disjoint sKids := by
            intro a ha hask
            exact hkidsfresh a hask ha
          rw [← List.append_assoc]
          exact List.nodup_append.mpr ⟨hndbase, hkidsnd, hdisj2⟩
      have hcompl'' : ∀ φ ∈ fullStates vars,
          φ ∈ (if stFull σ then Δ ++ [σ] else Δ) ∨ ∃ τ ∈ T' ++ sKids, stLE τ φ := by
        intro φ hφ
        have hφall : φ ∈ allStates vars := fullStates_subset_allStates hφ
        rcases hcompl φ hφ with hin | ⟨τ, hτ, hle⟩
        · left
          split
          · exact List.mem_append.mpr (Or.inl hin)
          · exact hin
        · rcases List.mem_cons.mp hτ with heq | hτT'
          · subst heq
            cases hfull : stFull τ with
            | true =>
              left
              have heqφ := stLE_full_eq hσall hφall hfull hle
              subst heqφ
              simp [hfull]
            | false =>
              obtain ⟨j, hj⟩ := stFull_false_exists (σ := τ) (by simp [hfull])
              have hjlt : j < τ.length := by
                by_contra hge
                rw [List.getElem?_eq_none (Nat.le_of_not_lt hge)] at hj
                exact Option.noConfusion hj
              have hjvars : j < vars.length := by
                rw [← allStates_length hσall]
                exact hjlt
              obtain ⟨p, hp⟩ : ∃ p, vars[j]? = some p :=
                ⟨vars[j], List.getElem?_eq_getElem hjvars⟩
              obtain ⟨v, hv, hφj⟩ := mem_fullStates_getElem hφ hp
              have hchild : τ.set j (some v) ∈ childrenOf τ vars := by
                have := childrenAux_complete (σ := τ) (m := 0) (i := j)
                  hp (by rw [Nat.zero_add]; exact hj) hv
                rw [Nat.zero_add] at this
                exact this
              have hlechild : stLE (τ.set j (some v)) φ := stLE_set hle hj hφj
              rcases mem_filterNew_complete (b := Δ ++ T') hchild with hink | hinb
              · exact Or.inr ⟨τ.set j (some v), List.mem_append.mpr (Or.inr hink), hlechild⟩
              · rcases List.mem_append.mp hinb with hinΔ | hinT'
                · left
                  have hchildfull : stFull (τ.set j (some v)) = true :=
                    mem_fullStates_stFull (hΔ _ hinΔ)
                  have heqφ : τ.set j (some v) = φ :=
                    stLE_full_eq (hchildall _ hchild) hφall hchildfull hlechild
                  rw [← heqφ]
                  split
                  · exact List.mem_append.mpr (Or.inl hinΔ)
                  · exact hinΔ
                · exact Or.inr ⟨τ.set j (some v), List.mem_append.mpr (Or.inl hinT'), hlechild⟩
          · exact Or.inr ⟨τ, List.mem_append.mpr (Or.inl hτT'), hle⟩
      have hpot'' : potT b (T' ++ sKids) ≤ f := by
        rw [potT_append]
        rw [potT_cons] at hpot
        cases hfull : stFull σ with
        | true =>
          have hkidsnil : sKids = [] := by
            rw [hsKids, childrenOf, childrenAux_of_full hfull]
            rfl
          have hstep1 : stepPot b σ = 1 := by
            rw [stepPot, stFull_unsub_zero hfull, Nat.pow_zero]
          rw [hkidsnil]
          have hpotnil : potT b ([] : List (List (Option String))) = 0 := rfl
          rw [hpotnil]
          omega
        | false =>
          obtain ⟨j0, hj0⟩ := stFull_false_exists (σ := σ) (by simp [hfull])
          have hu1 : 1 ≤ unsub σ := (unsub_set_none (v := "") hj0).1
          have hkidu : ∀ κ ∈ sKids, unsub κ = unsub σ - 1 := by
            intro κ hκ
            obtain ⟨i, p, v, hp, hσi, hv, rfl⟩ := childrenAux_sound (hkidsub κ hκ)
            rw [Nat.zero_add] at hσi ⊢
            exact (unsub_set_none hσi).2
          have hpotkids : potT b sKids = sKids.length * b ^ (unsub σ - 1) :=
            potT_le_of_unsub b _ sKids hkidu
          have hlen1 : sKids.length ≤ (childrenOf σ vars).length := by
            rw [hsKids]
            exact filterNew_length_le _ _
          have hlen2 : (childrenOf σ vars).length ≤ sumLens vars :=
            childrenAux_length σ 0 vars
          set c := b ^ (unsub σ - 1) with hc
          have hc1 : 1 ≤ c := Nat.pow_pos hb
          have hbu : b ^ unsub σ = sumLens vars * c + c := by
            have h9 : b ^ unsub σ = c * b := by
              rw [hc, ← Nat.pow_succ]
              congr 1
              omega
            rw [h9, hbdef]
            ring
          have hkidbound : potT b sKids ≤ sumLens vars * c := by
            rw [hpotkids]
            exact Nat.mul_le_mul_right c (Nat.le_trans hlen1 hlen2)
          rw [stepPot, hbu] at hpot
          omega
      -- assemble the step
      have hrest' : T'.map render ++ filterNew (Δ.map render ++ T'.map render)
          ((childrenOf σ vars).map render) = (T' ++ sKids).map render := by
        rw [List.map_append, hmapkids]
      have hunfold : expandLoop vars (f + 1) (Δ.map render) (render σ :: T'.map render) =
          expandLoop vars f
            (if stFull σ then Δ.map render ++ [render σ] else Δ.map render)
            ((T' ++ sKids).map render) := by
        show (match procPairs (Δ.map render) (render σ) vars (true, T'.map render) with
          | (present, rest') => expandLoop vars f
              (if present then Δ.map render ++ [render σ] else Δ.map render) rest') = _
        rw [hstep, hrest']
      cases hfull : stFull σ with
      | true =>
        rw [if_pos hfull] at hΔ' hnd'' hcompl''
        obtain ⟨D, hD, hDfull, hDnd, hDcompl⟩ :=
          ih (Δ ++ [σ]) (T' ++ sKids) hΔ' hT'' hnd'' hcompl'' hpot''
        refine ⟨D, ?_, hDfull, hDnd, hDcompl⟩
        rw [List.map_cons, hunfold, if_pos hfull]
        have hΔmap : Δ.map render ++ [render σ] = (Δ ++ [σ]).map render := by
          rw [List.map_append]
          rfl
        rw [hΔmap]
        exact hD
      | false =>
        have hfneg : ¬ (stFull σ = true) := by simp [hfull]
        rw [if_neg hfneg] at hΔ' hnd'' hcompl''
        obtain ⟨D, hD, hDfull, hDnd, hDcompl⟩ :=
          ih Δ (T' ++ sKids) hΔ' hT'' hnd'' hcompl'' hpot''
        refine ⟨D, ?_, hDfull, hDnd, hDcompl⟩
        rw [List.map_cons, hunfold, if_neg hfneg]
        exact hD

/-- Claim C5, amended: for a template rendered from substitution states
with k placeholders each occurring once (`RendersFaithfully`, stated
decidably: search strings occur exactly at unsubstituted slots and
`String.replace` acts as slot substitution), with nonempty lists and all
rendered states pairwise distinct, `expandVariables` terminates within
`expandFuelBound` steps and yields exactly n1 × … × nk sentences, each
with every placeholder fully substituted (no search string of any list
key occurs in any output sentence; the output is exactly the renders of
the fully substituted states).  Moreover a sentence in which no list
key's placeholder occurs expands to the singleton containing itself. -/
theorem c5_amended_cross_product
    (vars : List (String × List String)) (render : List (Option String) → String)
    (hne : ∀ p ∈ vars, p.2 ≠ [])
    (hinj : ((allStates vars).map render).Nodup)
    (hfullnd : ((fullStates vars).map render).Nodup)
    (hren : RendersFaithfully vars render)
    (fuel : Nat) (hfuel : expandFuelBound vars ≤ fuel) :
    (∃ out, expandVariables fuel (render (initState vars)) vars = some out ∧
      out.length = (vars.map (fun p => p.2.length)).prod ∧
      (∀ s ∈ out, ∀ kv ∈ vars, containsStr s (mkSearch kv.1) = false) ∧
      (∀ s ∈ out, ∃ φ ∈ fullStates vars, s = render φ) ∧
      (∀ φ ∈ fullStates vars, render φ ∈ out)) ∧
    (∀ (s : String) (lists : List (String × List String)) (fl : Nat), 0 < fl →
      (∀ kv ∈ lists, containsStr s (mkSearch kv.1) = false) →
      expandVariables fl s lists = some [s]) := by
  constructor
  · have hinit := initState_mem_allStates vars
    obtain ⟨D, hD, hDfull, hDnd, hDcompl⟩ := expandLoop_sim vars render hne hinj hren fuel
      [] [initState vars]
      (by intro δ h; cases h)
      (by
        intro τ h
        rw [List.mem_singleton.mp h]
        exact hinit)
      (by simp)
      (fun φ _ => Or.inr ⟨initState vars, List.mem_singleton.mpr rfl, stLE_initState vars φ⟩)
      (by
        rw [potT_cons]
        have h0 : potT (1 + sumLens vars) [] = 0 := rfl
        rw [h0, stepPot, unsub_initState]
        exact hfuel)
    refine ⟨D.map render, ?_, ?_, ?_, ?_, ?_⟩
    · show expandLoop vars fuel [] [render (initState vars)] = some (D.map render)
      exact hD
    · rw [List.length_map]
      have hFnd : (fullStates vars).Nodup := hfullnd.of_map
      have h1 : D.length ≤ (fullStates vars).length :=
        (List.Nodup.subperm hDnd hDfull).length_le
      have h2 : (fullStates vars).length ≤ D.length :=
        (List.Nodup.subperm hFnd hDcompl).length_le
      rw [← fullStates_length]
      omega
    · intro s hs kv hkv
      obtain ⟨φ, hφD, rfl⟩ := List.mem_map.mp hs
      have hφfull := hDfull φ hφD
      obtain ⟨j, hj⟩ := List.mem_iff_getElem?.mp hkv
      have hjp : (j, kv) ∈ vars.enum := List.mem_enum_iff_getElem?.mpr hj
      have hcond := hren φ (fullStates_subset_allStates hφfull) (j, kv) hjp
      obtain ⟨v, _, hφj⟩ := mem_fullStates_getElem hφfull hj
      simp only [List.getD_eq_getElem?_getD, hφj, Option.getD_some, Option.isSome_some,
        if_true] at hcond
      exact hcond
    · intro s hs
      obtain ⟨φ, hφD, rfl⟩ := List.mem_map.mp hs
      exact ⟨φ, hDfull φ hφD, rfl⟩
    · intro φ hφ
      exact List.mem_map.mpr ⟨φ, hDcompl φ hφ, rfl⟩
  · intro s lists fl hf h
    obtain ⟨n, rfl⟩ : ∃ n, fl = n + 1 :=
      ⟨fl - 1, (Nat.succ_pred_eq_of_pos hf).symm⟩
    unfold expandVariables expandLoop
    rw [procPairs_id _ _ _ _ h]
    show expandLoop lists n ([] ++ [s]) [] = some [s]
    cases n <;> rfl

/-- Claim C5, counterexample: the template `"x ${a}"` has one resolvable
placeholder referencing the list `a = ["v", "v"]` of size 2, yet
expansion yields a single sentence, not 2: the sentence `Set`
deduplicates the equal substitution results. -/
theorem c5_counterexample :
    expandVariables 10 "x ${a}" [("a", ["v", "v"])] = some ["x v"] ∧
    ([(("a" : String), ["v", "v"])].map (fun p => p.2.length)).prod = 2 := by
  exact ⟨rfl, rfl⟩

/-- Witness for `c5_amended_cross_product`: the template `"x ${a} ${b}"`
with lists `a = ["1","2"]` and `b = ["3","4"]` expands to exactly
2 × 2 = 4 fully substituted sentences. -/
theorem c5_witness :
    (∀ p ∈ [("a", ["1", "2"]), ("b", ["3", "4"])], p.2 ≠ []) ∧
    ((allStates [("a", ["1", "2"]), ("b", ["3", "4"])]).map
      (fun σ => "x " ++ ((σ.getD 0 none).getD "${a}") ++ " " ++
        ((σ.getD 1 none).getD "${b}"))).Nodup ∧
    ((fullStates [("a", ["1", "2"]), ("b", ["3", "4"])]).map
      (fun σ => "x " ++ ((σ.getD 0 none).getD "${a}") ++ " " ++
        ((σ.getD 1 none).getD "${b}"))).Nodup ∧
    RendersFaithfully [("a", ["1", "2"]), ("b", ["3", "4"])]
      (fun σ => "x " ++ ((σ.getD 0 none).getD "${a}") ++ " " ++
        ((σ.getD 1 none).getD "${b}")) ∧
    expandFuelBound [("a", ["1", "2"]), ("b", ["3", "4"])] ≤ 25 ∧
    ((∃ out, expandVariables 25
        ((fun σ => "x " ++ ((σ.getD 0 none).getD "${a}") ++ " " ++
          ((σ.getD 1 none).getD "${b}"))
          (initState [("a", ["1", "2"]), ("b", ["3", "4"])]))
        [("a", ["1", "2"]), ("b", ["3", "4"])] = some out ∧
      out.length = ([("a", ["1", "2"]), ("b", ["3", "4"])].map
        (fun p : String × List String => p.2.length)).prod ∧
      (∀ s ∈ out, ∀ kv ∈ [("a", ["1", "2"]), ("b", ["3", "4"])],
        containsStr s (mkSearch kv.1) = false) ∧
      (∀ s ∈ out, ∃ φ ∈ fullStates [("a", ["1", "2"]), ("b", ["3", "4"])],
        s = (fun σ => "x " ++ ((σ.getD 0 none).getD "${a}") ++ " " ++
          ((σ.getD 1 none).getD "${b}")) φ) ∧
      (∀ φ ∈ fullStates [("a", ["1", "2"]), ("b", ["3", "4"])],
        (fun σ => "x " ++ ((σ.getD 0 none).getD "${a}") ++ " " ++
          ((σ.getD 1 none).getD "${b}")) φ ∈ out)) ∧
    (∀ (s : String) (lists : List (String × List String)) (fl : Nat), 0 < fl →
      (∀ kv ∈ lists, containsStr s (mkSearch kv.1) = false) →
      expandVariables fl s lists = some [s])) :=
  ⟨by decide, by decide, by decide, by unfold RendersFaithfully; decide, by decide,
    c5_amended_cross_product [("a", ["1", "2"]), ("b", ["3", "4"])]
      (fun σ => "x " ++ ((σ.getD 0 none).getD "${a}") ++ " " ++
        ((σ.getD 1 none).getD "${b}"))
      (by decide) (by decide) (by decide)
      (by unfold RendersFaithfully; decide) 25 (by decide)⟩
